import Mathlib

/-!
Shallow embedding of the TopoNetX complexes
(`toponetx/classes/simplicial_complex.py` and `toponetx/classes/path_complex.py`)
together with proofs about their face-lattice maintenance and operator code.

Nodes are modelled as natural numbers.  A cell (simplex or p-path) is a
`List ℕ`.  Python `str(node)` is modelled by the list of decimal digits, and
Python string/tuple comparison by the lexicographic order on those lists.
Sparse scipy matrices are modelled by a dense row-major matrix `Mat` carrying
its shape; `coo_matrix((values, (rows, cols)))` sums all values landing on the
same position, which the entry functions below reproduce.  Python exceptions
are modelled with `Except Err`.
-/

namespace TopoNetX

/-- Kinds of exception raised by the embedded code: `range` models the
`ValueError`s raised for an out-of-range rank, `validation` the `ValueError`s
raised for a malformed cell, `key` a `KeyError` from a dict lookup or
`set.remove`, and `type` a `TypeError`. -/
inductive Err
  | range
  | validation
  | key
  | index
  | type
  deriving DecidableEq, Repr

instance {ε α : Type} [DecidableEq ε] [DecidableEq α] : DecidableEq (Except ε α) := fun x y =>
  match x, y with
  | .ok a, .ok b => decidable_of_iff (a = b) (by simp)
  | .error e, .error f => decidable_of_iff (e = f) (by simp)
  | .ok _, .error _ => isFalse (by simp)
  | .error _, .ok _ => isFalse (by simp)

/-- Decimal digits of `n`, most significant first; `fuel`-structured so that it
evaluates in the kernel. -/
def decDigitsAux : ℕ → ℕ → List ℕ
  | 0, _ => []
  | fuel + 1, n => if n = 0 then [] else decDigitsAux fuel (n / 10) ++ [n % 10]

/-- Model of Python `str(n)` for a natural-number node: its decimal digit
string (as a list of digit values; the characters `'0'..'9'` compare in the
same order as the digit values). -/
def decStr (n : ℕ) : List ℕ :=
  if n = 0 then [0] else decDigitsAux (n + 1) n

/-- Python `str(u) > str(v)` for natural-number nodes. -/
def strGt (u v : ℕ) : Bool :=
  decide (decStr v < decStr u)

/-- Python sort key `tuple(map(str, x))` for a cell. -/
def strKey (p : List ℕ) : List (List ℕ) :=
  p.map decStr

/-- The comparison used by `PathComplex.skeleton`'s
`sorted(..., key=lambda x: tuple(map(str, x)))`. -/
def strKeyLe (a b : List ℕ) : Prop :=
  strKey a ≤ strKey b

instance : DecidableRel strKeyLe := fun a b =>
  inferInstanceAs (Decidable (strKey a ≤ strKey b))

/-- `sorted` with the stringified-tuple key (`PathComplex.skeleton`). -/
def sortByStr (l : List (List ℕ)) : List (List ℕ) :=
  l.insertionSort strKeyLe

/-- The comparison used by `SimplicialComplex.skeleton`'s plain
`sorted(tuple(i) for i in ...)`: lexicographic order on the node tuples
themselves. -/
def natTupLe (a b : List ℕ) : Prop := a ≤ b

instance : DecidableRel natTupLe := fun a b =>
  inferInstanceAs (Decidable (a ≤ b))

/-- `sorted` with the plain tuple order (`SimplicialComplex.skeleton`). -/
def sortByNat (l : List (List ℕ)) : List (List ℕ) :=
  l.insertionSort natTupLe

/-- `np.sort(list(simplex))`: the node list in increasing order. -/
def sortNodes (l : List ℕ) : List ℕ :=
  l.insertionSort (· ≤ ·)

/-- The index map `{cell: i for i, cell in enumerate(L)}` built by the
incidence-matrix code: a Python dict comprehension keeps the **last**
index for a repeated key. -/
def dictIdx? : List (List ℕ) → List ℕ → Option ℕ
  | [], _ => none
  | a :: rest, k =>
    match dictIdx? rest k with
    | some i => some (i + 1)
    | none => if a = k then some 0 else none

/-- A scipy matrix, stored densely with its shape. -/
structure Mat where
  rows : ℕ
  cols : ℕ
  data : List (List ℤ)
  deriving DecidableEq, Repr

namespace Mat

/-- Entry of a matrix (0 outside the stored shape). -/
def entry (A : Mat) (i j : ℕ) : ℤ :=
  (A.data.getD i []).getD j 0

/-- Build the dense matrix of a shape and an entry function. -/
def ofFn (r c : ℕ) (f : ℕ → ℕ → ℤ) : Mat :=
  ⟨r, c, (List.range r).map fun i => (List.range c).map fun j => f i j⟩

/-- The all-zero matrix of a given shape. -/
def zero (r c : ℕ) : Mat := ofFn r c fun _ _ => 0

/-- The identity matrix `scipy.sparse.eye(n)`. -/
def eyeM (n : ℕ) : Mat := ofFn n n fun i j => if i = j then 1 else 0

/-- Matrix product `A @ B`. -/
def mul (A B : Mat) : Mat :=
  ofFn A.rows B.cols fun i j => ∑ k ∈ Finset.range A.cols, A.entry i k * B.entry k j

/-- `A.transpose()`. -/
def tr (A : Mat) : Mat :=
  ofFn A.cols A.rows fun i j => A.entry j i

/-- `abs(A)`. -/
def absM (A : Mat) : Mat :=
  ofFn A.rows A.cols fun i j => |A.entry i j|

/-- `A.setdiag(0)`. -/
def setdiag0 (A : Mat) : Mat :=
  ofFn A.rows A.cols fun i j => if i = j then 0 else A.entry i j

/-- `np.power(A, k)` for a scipy sparse matrix `A`: the ufunc wraps the
matrix in a 0-d object array and applies Python `**`, i.e.
`spmatrix.__pow__`, the `k`-th **matrix** power, whose `k = 0` case is the
sparse identity `speye` of the (square) matrix's shape. -/
def matPow (A : Mat) : ℕ → Mat
  | 0 => eyeM A.rows
  | k + 1 => mul (matPow A k) A

/-- `A + B`. -/
def add (A B : Mat) : Mat :=
  ofFn A.rows A.cols fun i j => A.entry i j + B.entry i j

theorem entry_ofFn (r c : ℕ) (f : ℕ → ℕ → ℤ) (i j : ℕ) :
    (ofFn r c f).entry i j = if i < r ∧ j < c then f i j else 0 := by
  unfold ofFn entry
  dsimp only
  simp only [List.getD_eq_getElem?_getD]
  have hrow : (List.map (fun i => List.map (fun j => f i j) (List.range c)) (List.range r))[i]? =
      if i < r then some ((List.range c).map fun j => f i j) else none := by
    by_cases hi : i < r
    · rw [List.getElem?_map, List.getElem?_range hi]
      simp [hi]
    · rw [List.getElem?_map, List.getElem?_eq_none (by simpa using Nat.le_of_not_lt hi)]
      simp [hi]
  rw [hrow]
  by_cases hi : i < r
  · simp only [if_pos hi, Option.getD_some]
    have hcol : ((List.range c).map fun j => f i j)[j]? =
        if j < c then some (f i j) else none := by
      by_cases hj : j < c
      · rw [List.getElem?_map, List.getElem?_range hj]
        simp [hj]
      · rw [List.getElem?_map, List.getElem?_eq_none (by simpa using Nat.le_of_not_lt hj)]
        simp [hj]
    rw [hcol]
    by_cases hj : j < c <;> simp [hi, hj]
  · simp [hi]

theorem rows_ofFn (r c : ℕ) (f : ℕ → ℕ → ℤ) : (ofFn r c f).rows = r := rfl

theorem cols_ofFn (r c : ℕ) (f : ℕ → ℕ → ℤ) : (ofFn r c f).cols = c := rfl

/-- Two `ofFn` matrices of the same shape with entry functions that agree on
the shape are equal. -/
theorem ofFn_congr {r c : ℕ} {f g : ℕ → ℕ → ℤ}
    (h : ∀ i < r, ∀ j < c, f i j = g i j) : ofFn r c f = ofFn r c g := by
  unfold ofFn
  refine congrArg (Mat.mk r c) ?_
  refine List.map_congr_left fun i hi => ?_
  refine List.map_congr_left fun j hj => ?_
  exact h i (List.mem_range.mp hi) j (List.mem_range.mp hj)

/-- Right multiplication by the identity is the identity on shape-normalised
matrices. -/
theorem mul_eye (r c : ℕ) (f : ℕ → ℕ → ℤ) :
    mul (ofFn r c f) (eyeM c) = ofFn r c f := by
  unfold mul eyeM
  simp only [rows_ofFn, cols_ofFn]
  refine ofFn_congr fun i hi j hj => ?_
  refine (Finset.sum_eq_single_of_mem j (Finset.mem_range.mpr hj) ?_).trans ?_
  · intro b hbm hb
    have hbc : b < c := Finset.mem_range.mp hbm
    simp [entry_ofFn, hi, hj, hbc, hb]
  · simp [entry_ofFn, hi, hj]

/-- Left multiplication by the identity is the identity on shape-normalised
matrices. -/
theorem eye_mul (r c : ℕ) (f : ℕ → ℕ → ℤ) :
    mul (eyeM r) (ofFn r c f) = ofFn r c f := by
  unfold mul eyeM
  simp only [rows_ofFn, cols_ofFn]
  refine ofFn_congr fun i hi j hj => ?_
  refine (Finset.sum_eq_single_of_mem i (Finset.mem_range.mpr hi) ?_).trans ?_
  · intro b hbm hb
    have hbr : b < r := Finset.mem_range.mp hbm
    simp [entry_ofFn, hi, hj, hbr, Ne.symm hb]
  · simp [entry_ofFn, hi, hj]

end Mat

/-! ## PathComplex (`toponetx/classes/path_complex.py`) -/

/-- Attribute store of a cell: a Python dict modelled as an insertion-ordered
association list with unique keys (values are opaque; integers suffice). -/
abbrev AttrD := List (ℕ × ℤ)

/-- `d[k] = v` on a Python dict: overwrite in place if the key exists,
append otherwise. -/
def dictSet : AttrD → ℕ → ℤ → AttrD
  | [], k, v => [(k, v)]
  | (k', v') :: rest, k, v =>
    if k' = k then (k', v) :: rest else (k', v') :: dictSet rest k v

/-- `d.update(a)` on a Python dict. -/
def dictUpdate (d : AttrD) (a : AttrD) : AttrD :=
  a.foldl (fun acc kv => dictSet acc kv.1 kv.2) d

/-- One rank bucket of the face lattice: the dict `faces_dict[r]`, modelled as
an insertion-ordered association list from cells to attribute stores. -/
abbrev Bucket := List (List ℕ × AttrD)

/-- The keys of a bucket. -/
def bucketKeys (b : Bucket) : List (List ℕ) :=
  b.map Prod.fst

/-- Insertion into a Python set (only membership and removal of the
`_allowed_paths` set are ever observed). -/
def setInsert (s : List (List ℕ)) (x : List ℕ) : List (List ℕ) :=
  if x ∈ s then s else s ++ [x]

/-- State of a `PathComplex`: the `PathView`'s `faces_dict` rank buckets and
`max_dim`, the `_allowed_paths` set and the `_reserve_sequence_order` flag.
(`max_dim` of the empty complex is modelled as 0; every claim below concerns
non-empty complexes, for which the stored value is forced by the updates in
`add_path` and `_remove_path`.) -/
structure PC where
  buckets : List Bucket
  allowed : List (List ℕ)
  reserve : Bool
  maxDim : ℕ
  deriving DecidableEq, Repr

/-- The empty path complex. -/
def PC.empty (reserve : Bool) : PC :=
  ⟨[], [], reserve, 0⟩

/-- The canonical form of a (sub-)path: reversed when the first node
string-compares greater than the last, unless in reserve-order mode
(`if not reserve_sequence_order and str(sub_path[0]) > str(sub_path[-1])`). -/
def canonPath (reserve : Bool) (p : List ℕ) : List ℕ :=
  if !reserve && strGt (p.headD 0) (p.getLastD 0) then p.reverse else p

/-- The contiguous sub-sequences of a path in the order generated by
`add_path`: `for length in range(len(path_), 0, -1): for i in
range(0, len(path_) - length + 1): path_[i : i + length]`. -/
def subPathsList (p : List ℕ) : List (List ℕ) :=
  (List.range p.length).flatMap fun k =>
    let l := p.length - k
    (List.range (p.length - l + 1)).map fun i => (p.drop i).take l

/-- `_update_faces_dict_length`: grow the bucket list so that a path of
`n` nodes has a bucket at index `n - 1`. -/
def growBuckets (bs : List Bucket) (n : ℕ) : List Bucket :=
  bs ++ List.replicate (n - bs.length) []

/-- `_update_faces_dict_entry`: insert the path into its rank bucket if it is
absent, reporting whether it was new. -/
def updateEntry (bs : List Bucket) (path : List ℕ) : List Bucket × Option (List ℕ) :=
  if path ∈ bucketKeys (bs.getD (path.length - 1) []) then (bs, none)
  else (bs.set (path.length - 1) (bs.getD (path.length - 1) [] ++ [(path, [])]), some path)

/-- `faces_dict[len(path_) - 1][path_].update(attr)`. -/
def mergeAttrsAt (bs : List Bucket) (p : List ℕ) (a : AttrD) : List Bucket :=
  bs.set (p.length - 1)
    ((bs.getD (p.length - 1) []).map fun kv =>
      if kv.1 = p then (kv.1, dictUpdate kv.2 a) else kv)

/-- One step of the sub-path expansion loop of `add_path`: canonicalize the
sub-path, insert it if new, and record it in `new_paths` if it was new. -/
def expandStep (reserve : Bool) (acc : List Bucket × List (List ℕ)) (sub : List ℕ) :
    List Bucket × List (List ℕ) :=
  ((updateEntry acc.1 (canonPath reserve sub)).1,
    match (updateEntry acc.1 (canonPath reserve sub)).2 with
    | some q => acc.2 ++ [q]
    | none => acc.2)

/-- The whole sub-path expansion loop of `add_path`, returning the updated
buckets and the `new_paths` set (as the list of newly registered paths). -/
def expandAll (reserve : Bool) (bs : List Bucket) (path : List ℕ) :
    List Bucket × List (List ℕ) :=
  (subPathsList path).foldl (expandStep reserve) (bs, [])

/-- `PathComplex.add_path` for a list/tuple input.  Validation errors are the
two `ValueError`s of the source; on success the returned state reflects the
bucket growth, `max_dim` update, early return for an already-present path,
sub-path expansion, `_allowed_paths` update and attribute merge, in source
order. -/
def addPath (K : PC) (path : List ℕ) (attr : AttrD) : Except Err PC :=
  if path.length ≠ path.dedup.length then .error .validation
  else if path.length > 1 && strGt (path.headD 0) (path.getLastD 0) && !K.reserve then
    .error .validation
  else if path ∈ bucketKeys ((growBuckets K.buckets path.length).getD (path.length - 1) []) then
    .ok { K with
          buckets := mergeAttrsAt (growBuckets K.buckets path.length) path attr
          maxDim := max K.maxDim (path.length - 1) }
  else
    .ok { buckets :=
            mergeAttrsAt (expandAll K.reserve (growBuckets K.buckets path.length) path).1
              path attr
          allowed :=
            if (expandAll K.reserve (growBuckets K.buckets path.length) path).2 = []
            then K.allowed
            else (expandAll K.reserve (growBuckets K.buckets path.length) path).2.foldl
              setInsert K.allowed
          reserve := K.reserve
          maxDim := max K.maxDim (path.length - 1) }

/-- `add_paths_from`. -/
def addPathsFrom (K : PC) (ps : List (List ℕ)) : Except Err PC :=
  ps.foldlM (fun acc p => addPath acc p []) K

/-- Convenience (not part of the source): run `add_path` and keep the old
state on error; used only to build concrete instances. -/
def addPathD (K : PC) (p : List ℕ) : PC :=
  ((addPath K p []).toOption).getD K

/-- The sorted rank-`r` bucket (the payload of `PathComplex.skeleton`). -/
def pathSkelN (K : PC) (r : ℕ) : List (List ℕ) :=
  sortByStr (bucketKeys (K.buckets.getD r []))

/-- `PathComplex.skeleton`: defined for `0 <= rank < len(faces_dict)`,
`ValueError` otherwise. -/
def pathSkeleton (K : PC) (rank : ℤ) : Except Err (List (List ℕ)) :=
  if 0 ≤ rank ∧ rank < (K.buckets.length : ℤ) then .ok (pathSkelN K rank.toNat)
  else .error .range

/-- The entry of the rank-`rank` path boundary matrix at row `f` (an index
into the sorted rank-`(rank-1)` skeleton) and column `s` (an index into the
sorted rank-`rank` skeleton): the sum of `(-1) ** i` over the positions `i`
whose canonicalized boundary path lies in `_allowed_paths` and indexes to
`f` (a `coo_matrix` sums all values placed at one position). -/
def pathBdryEntry (K : PC) (skelM skelT : List (List ℕ)) (f s : ℕ) : ℤ :=
  ∑ i ∈ Finset.range ((skelT.getD s []).length),
    if canonPath K.reserve ((skelT.getD s []).eraseIdx i) ∈ K.allowed ∧
        dictIdx? skelM (canonPath K.reserve ((skelT.getD s []).eraseIdx i)) = some f
    then (-1) ^ i else 0

/-- Do all the `path_minus_1_dict[boundary_path]` lookups of
`PathComplex.incidence_matrix` succeed?  (They are attempted exactly for the
boundary paths that lie in `_allowed_paths`.) -/
def pathLookOk (K : PC) (skelM skelT : List (List ℕ)) : Bool :=
  skelT.all fun t => (List.range t.length).all fun i =>
    !(decide (canonPath K.reserve (t.eraseIdx i) ∈ K.allowed)) ||
      (dictIdx? skelM (canonPath K.reserve (t.eraseIdx i))).isSome

/-- `PathComplex.incidence_matrix` (without the `index` return). -/
def pathIncidence (K : PC) (rank : ℤ) (signed : Bool) : Except Err Mat :=
  if rank < 0 then .error .range
  else if rank > (K.maxDim : ℤ) then .error .range
  else if rank = 0 then
    .ok (Mat.absM (Mat.zero 0 (pathSkelN K 0).length))
  else do
    let skelM ← pathSkeleton K (rank - 1)
    let skelT ← pathSkeleton K rank
    if pathLookOk K skelM skelT then
      let B := Mat.ofFn skelM.length skelT.length (pathBdryEntry K skelM skelT)
      pure (if signed then B else Mat.absM B)
    else .error .key

/-- `PathComplex._remove_path` (the bucket `del`, the `_allowed_paths.remove`
— each a `KeyError` when the element is absent — and the `max_dim`
decrement). -/
def removePath (K : PC) (p : List ℕ) : Except Err PC :=
  if p ∉ bucketKeys (K.buckets.getD (p.length - 1) []) then .error .key
  else if p ∉ K.allowed then .error .key
  else
    .ok { K with
          buckets := K.buckets.set (p.length - 1)
            ((K.buckets.getD (p.length - 1) []).eraseP fun kv => kv.1 = p)
          allowed := K.allowed.erase p
          maxDim :=
            if ((K.buckets.getD (p.length - 1) []).eraseP fun kv => kv.1 = p).length = 0 ∧
                K.maxDim = p.length - 1
            then K.maxDim - 1 else K.maxDim }

/-- The set of stored paths meeting the removal node set, in the order
`remove_nodes` collects them (iterating the rank buckets in order; a Python
set holds each at most once). -/
def removedList (K : PC) (ns : List ℕ) : List (List ℕ) :=
  ((K.buckets.flatMap bucketKeys).filter fun p => ns.any (· ∈ p)).dedup

/-- `PathComplex.remove_nodes`: collect every stored path meeting the node
set, then `_remove_path` each. -/
def removeNodes (K : PC) (ns : List ℕ) : Except Err PC :=
  (removedList K ns).foldlM removePath K

/-! ## SimplicialComplex (`toponetx/classes/simplicial_complex.py`)

`faces_dict[r]` maps each rank-`r` simplex — a frozenset, modelled in its
canonical form as the increasingly sorted list of its (distinct) nodes — to
its attribute store.  The attribute stores play no role in any claim below,
so the buckets keep only the keys. -/

/-- State of a `SimplicialComplex`: the `SimplexView`'s `faces_dict` and
`max_dim` (as for `PC`, the empty complex's `max_dim` is modelled as 0). -/
structure SC where
  buckets : List (List (List ℕ))
  maxDim : ℕ
  deriving DecidableEq, Repr

/-- The empty simplicial complex. -/
def SC.empty : SC := ⟨[], 0⟩

/-- Modelled from the spec: `SimplexView.insert_simplex` is code of this
repository that is not under `src/` (only its caller
`SimplicialComplex.add_simplex` is).  Spec §4.2: "`insert(cell, attrs)`: if
`cell` already present at its rank, merge attrs (idempotent update) and
return with no structural change.  Otherwise, for every ['every contiguous
sub-sequence' generalized to 'every subset' for simplices] generate the
canonical sub-face and insert it into its rank bucket if absent ...; grow
the bucket list if the new cell's rank exceeds current depth.  Update
`max_dim`."  Validation of duplicate nodes per §4.1; a cell is "a tuple of
≥1 distinct hashable node identifiers" (§3).  The canonical form of a subset
is its sorted node list; the subsets of the cell are exactly the sublists of
its canonical form.  `scInsStep` inserts one sub-face into its rank bucket
if absent; `insertSimplex` is the whole insertion. -/
def scInsStep (bs : List (List (List ℕ))) (f : List ℕ) : List (List (List ℕ)) :=
  if f ∈ bs.getD (f.length - 1) [] then bs
  else bs.set (f.length - 1) (bs.getD (f.length - 1) [] ++ [f])

/-- Modelled from the spec: `SimplexView.insert_simplex` (see `scInsStep`). -/
def insertSimplex (K : SC) (s : List ℕ) : Except Err SC :=
  if s.dedup.length ≠ s.length ∨ s = [] then .error .validation
  else if sortNodes s ∈ K.buckets.getD ((sortNodes s).length - 1) [] then .ok K
  else
    .ok { buckets :=
            ((sortNodes s).sublists.filter (· ≠ [])).foldl scInsStep
              (K.buckets ++ List.replicate ((sortNodes s).length - K.buckets.length) [])
          maxDim := max K.maxDim ((sortNodes s).length - 1) }

/-- Convenience (not part of the source): `insert_simplex` keeping the old
state on error; used only to build concrete instances. -/
def insertSimplexD (K : SC) (s : List ℕ) : SC :=
  ((insertSimplex K s).toOption).getD K

/-- The sorted rank-`r` bucket (payload of `SimplicialComplex.skeleton`):
`sorted(tuple(i) for i in faces_dict[rank].keys())`, the plain lexicographic
order on the node tuples. -/
def scSkelN (K : SC) (r : ℕ) : List (List ℕ) :=
  sortByNat (K.buckets.getD r [])

/-- `SimplicialComplex.skeleton`: `if rank < len(faces_dict): return
sorted(...faces_dict[rank]...)`.  Python list indexing makes a negative
`rank` wrap around (`faces_dict[-1]` is the top bucket) and raise
`IndexError` below `-len`; the source's `if rank < 0: raise ValueError` line
is unreachable. -/
def scSkeleton (K : SC) (rank : ℤ) : Except Err (List (List ℕ)) :=
  if rank < (K.buckets.length : ℤ) then
    if 0 ≤ rank then .ok (scSkelN K rank.toNat)
    else if -(K.buckets.length : ℤ) ≤ rank then
      .ok (scSkelN K (rank + K.buckets.length).toNat)
    else .error .index
  else .error .range

/-- Entry of the rank-`rank` boundary matrix of a simplicial complex at row
`f` (index into the sorted rank-`(rank-1)` skeleton) and column `s` (index
into the sorted rank-`rank` skeleton): for each position `i` of the sorted
node list of the column's simplex, removing that node gives the face
`frozenset(simplex).difference({left_out})` looked up in the rank-`(rank-1)`
index dict, with value `(-1) ** i` (a `coo_matrix` sums all values placed at
one position). -/
def scBdryEntry (skelM skelT : List (List ℕ)) (f s : ℕ) : ℤ :=
  ∑ i ∈ Finset.range ((sortNodes (skelT.getD s [])).length),
    if dictIdx? skelM ((sortNodes (skelT.getD s [])).eraseIdx i) = some f
    then (-1) ^ i else 0

/-- Do all `simplex_dict_d_minus_1[tuple(face)]` lookups of
`SimplicialComplex.incidence_matrix` succeed? -/
def scLookOk (skelM skelT : List (List ℕ)) : Bool :=
  skelT.all fun t => (List.range (sortNodes t).length).all fun i =>
    (dictIdx? skelM ((sortNodes t).eraseIdx i)).isSome

/-- `SimplicialComplex.incidence_matrix` (without the `index`/`weight`
returns).  `rank <= 0` raises, so the source's `rank == 0` branch is
unreachable. -/
def scIncidence (K : SC) (rank : ℤ) (signed : Bool) : Except Err Mat :=
  if rank ≤ 0 then .error .range
  else if rank > (K.maxDim : ℤ) then .error .range
  else do
    let skelT ← scSkeleton K rank
    let skelM ← scSkeleton K (rank - 1)
    if scLookOk skelM skelT then
      let B := Mat.ofFn skelM.length skelT.length (scBdryEntry skelM skelT)
      pure (if signed then B else Mat.absM B)
    else .error .key

/-- The entry list `(idx_faces[n], idx_simplices[n], values[n])` generated by
the `incidence_matrix` loop for one simplex (given as its sorted node list
`t` at column `sIdx`); `none` when a face lookup raises `KeyError`. -/
def scEntriesFor (skelM : List (List ℕ)) (t : List ℕ) (sIdx : ℕ) :
    Option (List (ℕ × ℕ × ℤ)) :=
  (List.range t.length).mapM fun i =>
    (dictIdx? skelM (t.eraseIdx i)).map fun fIdx => (fIdx, sIdx, ((-1) ^ i : ℤ))

/-- The full entry list generated by the `incidence_matrix` loop at rank `r`
(the source asserts `len(values) == (rank + 1) * len(simplex_dict_d)` about
it). -/
def scEntries (K : SC) (r : ℕ) : Option (List (ℕ × ℕ × ℤ)) :=
  ((List.range (scSkelN K r).length).mapM fun sIdx =>
      scEntriesFor (scSkelN K (r - 1)) (sortNodes ((scSkelN K r).getD sIdx [])) sIdx).map
    List.flatten

/-- `SimplicialComplex.coincidence_matrix` (the `index=False` path). -/
def scCoincidence (K : SC) (rank : ℤ) (signed : Bool) : Except Err Mat :=
  (scIncidence K rank signed).map Mat.tr

/-- `SimplicialComplex.up_laplacian_matrix`. -/
def scUpLaplacian (K : SC) (rank : ℤ) (signed : Bool) : Except Err Mat :=
  if rank = 0 ∨ rank < (K.maxDim : ℤ) then do
    let Bn ← scIncidence K (rank + 1) true
    let L := Mat.mul Bn (Mat.tr Bn)
    pure (if signed then L else Mat.absM L)
  else .error .range

/-- `SimplicialComplex.down_laplacian_matrix`. -/
def scDownLaplacian (K : SC) (rank : ℤ) (signed : Bool) : Except Err Mat :=
  if rank ≤ (K.maxDim : ℤ) ∧ 0 < rank then do
    let B ← scIncidence K rank true
    let L := Mat.mul (Mat.tr B) B
    pure (if signed then L else Mat.absM L)
  else .error .range

/-- `SimplicialComplex.adjacency_matrix`. -/
def scAdjacency (K : SC) (rank : ℤ) (signed : Bool) : Except Err Mat := do
  let L ← scUpLaplacian K rank signed
  let L' := Mat.setdiag0 L
  pure (if signed then L' else Mat.absM L')

/-- `SimplicialComplex.coadjacency_matrix`. -/
def scCoadjacency (K : SC) (rank : ℤ) (signed : Bool) : Except Err Mat := do
  let L ← scDownLaplacian K rank signed
  let L' := Mat.setdiag0 L
  pure (if signed then L' else Mat.absM L')

/-- `SimplicialComplex.k_hop_incidence_matrix`.  `np.power(A, k)` on the
sparse adjacency/coadjacency matrix dispatches, via a 0-d object array, to
`spmatrix.__pow__` — the matrix power (`Mat.matPow`), not an element-wise
power. -/
def scKHopIncidence (K : SC) (rank : ℤ) (k : ℕ) : Except Err Mat := do
  let inc ← scIncidence K rank true
  if rank = (K.maxDim : ℤ) then do
    let coadj ← scCoadjacency K rank true
    pure (Mat.mul inc (Mat.matPow coadj k))
  else do
    let adj ← scAdjacency K rank true
    if rank = 0 then
      pure (Mat.mul inc (Mat.matPow adj k))
    else do
      let coadj ← scCoadjacency K rank true
      pure (Mat.add (Mat.mul inc (Mat.matPow adj k)) (Mat.mul inc (Mat.matPow coadj k)))

/-- `SimplicialComplex.k_hop_coincidence_matrix`. -/
def scKHopCoincidence (K : SC) (rank : ℤ) (k : ℕ) : Except Err Mat := do
  let coinc ← scCoincidence K rank true
  if rank = (K.maxDim : ℤ) then do
    let coadj ← scCoadjacency K rank true
    pure (Mat.mul (Mat.matPow coadj k) coinc)
  else do
    let adj ← scAdjacency K rank true
    if rank = 0 then
      pure (Mat.mul (Mat.matPow adj k) coinc)
    else do
      let coadj ← scCoadjacency K rank true
      pure (Mat.add (Mat.mul (Mat.matPow adj k) coinc) (Mat.mul (Mat.matPow coadj k) coinc))

/-! ## Construction of a `PathComplex` from a graph

The graph ADT is the external `networkx.Graph` (spec §6: consumed only at
construction time).  `nx.all_simple_paths(graph, source, target, cutoff)`
enumerates the simple paths from `source` to `target` with at most `cutoff`
edges. -/

/-- An undirected graph given by its node list (insertion order) and edge
list. -/
structure UGraph where
  nodes : List ℕ
  edges : List (ℕ × ℕ)
  deriving DecidableEq, Repr

/-- Adjacency in an undirected graph. -/
def UGraph.adj (G : UGraph) (u v : ℕ) : Bool :=
  G.edges.any fun e => (e.1 = u && e.2 = v) || (e.1 = v && e.2 = u)

/-- Simple paths from `cur` to `tgt` avoiding `visited`, with at most `fuel`
edges. -/
def simplePathsFrom (G : UGraph) (tgt : ℕ) : ℕ → ℕ → List ℕ → List (List ℕ)
  | fuel, cur, visited =>
    if cur = tgt then [[cur]]
    else
      match fuel with
      | 0 => []
      | fuel + 1 =>
        (G.nodes.filter fun v => G.adj cur v && !(visited.contains v)).flatMap fun v =>
          (simplePathsFrom G tgt fuel v (v :: visited)).map (cur :: ·)

/-- `nx.all_simple_paths(G, source, target, cutoff)` (as node lists). -/
def allSimplePaths (G : UGraph) (src tgt : ℕ) (cutoff : ℕ) : List (List ℕ) :=
  simplePathsFrom G tgt cutoff src [src]

/-- `sorted(graph.nodes, key=lambda x: str(x))`. -/
def nodeStrLe (a b : ℕ) : Prop := decStr a ≤ decStr b

instance : DecidableRel nodeStrLe := fun a b =>
  inferInstanceAs (Decidable (decStr a ≤ decStr b))

/-- Sort nodes by their stringification. -/
def sortNodesByStr (l : List ℕ) : List ℕ :=
  l.insertionSort nodeStrLe

/-- `PathComplex.compute_allowed_paths`: all singletons, all canonicalized
edges and all canonicalized simple paths of at most `max_rank` edges between
node pairs `src_idx < tgt_idx`, as a set. -/
def computeAllowedPaths (G : UGraph) (reserve : Bool) (maxRank : ℕ) : List (List ℕ) :=
  let nodesL := (sortNodesByStr G.nodes).map fun n => [n]
  let edgesL := G.edges.map fun e =>
    if !reserve && strGt e.1 e.2 then [e.2, e.1] else [e.1, e.2]
  let pairPaths := (List.range G.nodes.length).flatMap fun si =>
    (List.range G.nodes.length).flatMap fun ti =>
      if si < ti then
        (allSimplePaths G (G.nodes.getD si 0) (G.nodes.getD ti 0) maxRank).map fun p =>
          if !reserve && strGt (p.headD 0) (p.getLastD 0) then p.reverse else p
      else []
  (nodesL ++ edgesL ++ pairPaths).dedup

/-- `PathComplex.__init__` for a graph input: precompute `_allowed_paths`,
add every node and every (canonicalized) edge, then
`add_paths_from(self._allowed_paths)`. -/
def pcFromGraph (G : UGraph) (reserve : Bool) (maxRank : ℕ) : Except Err PC := do
  let allowed := computeAllowedPaths G reserve maxRank
  let K0 : PC := { buckets := [], allowed := allowed, reserve := reserve, maxDim := 0 }
  let K1 ← G.nodes.foldlM (fun acc n => addPath acc [n] []) K0
  let K2 ← G.edges.foldlM (fun acc e =>
      addPath acc (if !reserve && strGt e.1 e.2 then [e.2, e.1] else [e.1, e.2]) []) K1
  addPathsFrom K2 allowed

/-! ## State invariants (reachable-state properties used as hypotheses) -/

/-- The path `p` is stored in the face lattice (at its rank bucket). -/
def pcFacesMem (K : PC) (p : List ℕ) : Prop :=
  p ∈ bucketKeys (K.buckets.getD (p.length - 1) [])

instance (K : PC) (p : List ℕ) : Decidable (pcFacesMem K p) :=
  inferInstanceAs (Decidable (_ ∈ _))

/-- Closure invariant of a `PathComplex`: the canonical form of every
contiguous sub-sequence of every stored path is stored. -/
def pcClosed (K : PC) : Prop :=
  ∀ b ∈ K.buckets, ∀ kv ∈ b, ∀ sub ∈ subPathsList kv.1,
    pcFacesMem K (canonPath K.reserve sub)

instance (K : PC) : Decidable (pcClosed K) :=
  inferInstanceAs (Decidable (∀ _ ∈ _, ∀ _ ∈ _, ∀ _ ∈ _, _))

/-- Structural invariant of a `PathComplex`: bucket keys are distinct (they
model Python dict keys), every stored path sits in the bucket of its rank,
and — the invariant behind claim C10 — every stored path belongs to
`_allowed_paths`. -/
def pcInv (K : PC) : Prop :=
  (∀ b ∈ K.buckets, (bucketKeys b).Nodup) ∧
  ∀ r < K.buckets.length, ∀ p ∈ bucketKeys (K.buckets.getD r []),
    p.length = r + 1 ∧ p ∈ K.allowed

instance (K : PC) : Decidable (pcInv K) :=
  inferInstanceAs (Decidable (_ ∧ _))

/-- The simplex `f` is stored in the face lattice (at its rank bucket). -/
def scFacesMem (K : SC) (f : List ℕ) : Prop :=
  f ∈ K.buckets.getD (f.length - 1) []

instance (K : SC) (f : List ℕ) : Decidable (scFacesMem K f) :=
  inferInstanceAs (Decidable (_ ∈ _))

/-- Closure invariant of a `SimplicialComplex`: every non-empty sublist of
every stored (canonically sorted) simplex is stored. -/
def scClosed (K : SC) : Prop :=
  ∀ b ∈ K.buckets, ∀ t ∈ b, ∀ f ∈ t.sublists, f ≠ [] → scFacesMem K f

instance (K : SC) : Decidable (scClosed K) :=
  inferInstanceAs (Decidable (∀ _ ∈ _, ∀ _ ∈ _, ∀ _ ∈ _, _))

/-- One-level closure: every boundary face of a rank-`r` simplex lies in the
rank-`(r-1)` bucket. -/
def scClosedAt (K : SC) (r : ℕ) : Prop :=
  ∀ t ∈ K.buckets.getD r [], ∀ i < (sortNodes t).length,
    (sortNodes t).eraseIdx i ∈ K.buckets.getD (r - 1) []

instance (K : SC) (r : ℕ) : Decidable (scClosedAt K r) :=
  inferInstanceAs (Decidable (∀ _ ∈ _, ∀ _, _))

/-- Rank consistency: every simplex in the rank-`r` bucket has `r + 1`
nodes. -/
def scRankLen (K : SC) (r : ℕ) : Prop :=
  ∀ t ∈ K.buckets.getD r [], t.length = r + 1

instance (K : SC) (r : ℕ) : Decidable (scRankLen K r) :=
  inferInstanceAs (Decidable (∀ _ ∈ _, _))

/-! ## Helper lemmas -/

theorem dictIdx?_spec : ∀ {L : List (List ℕ)} {k : List ℕ} {i : ℕ},
    dictIdx? L k = some i → i < L.length ∧ L.getD i [] = k
  | [], k, i, h => by simp [dictIdx?] at h
  | a :: rest, k, i, h => by
    unfold dictIdx? at h
    cases hr : dictIdx? rest k with
    | some j =>
      rw [hr] at h
      obtain ⟨hj, hg⟩ := dictIdx?_spec hr
      cases h
      exact ⟨Nat.succ_lt_succ hj, by simpa using hg⟩
    | none =>
      rw [hr] at h
      by_cases ha : a = k
      · simp only [ha, if_pos rfl] at h
        cases h
        exact ⟨Nat.succ_pos _, ha⟩
      · simp [ha] at h

theorem dictIdx?_isSome : ∀ {L : List (List ℕ)} {k : List ℕ},
    (dictIdx? L k).isSome ↔ k ∈ L
  | [], k => by simp [dictIdx?]
  | a :: rest, k => by
    unfold dictIdx?
    cases hr : dictIdx? rest k with
    | some j =>
      have : k ∈ rest := by
        have h2 := @dictIdx?_isSome rest k
        rw [hr] at h2
        simpa using h2
      simp [this]
    | none =>
      have hk : k ∉ rest := by
        have h2 := @dictIdx?_isSome rest k
        rw [hr] at h2
        simpa using h2
      by_cases ha : a = k <;> simp [ha, hk, eq_comm]

theorem sortNodes_sorted (l : List ℕ) : (sortNodes l).Sorted (· ≤ ·) :=
  List.sorted_insertionSort _ l

theorem sortNodes_eq_of_sorted {l : List ℕ} (h : l.Sorted (· ≤ ·)) :
    sortNodes l = l :=
  h.insertionSort_eq

theorem sortNodes_eraseIdx_of_sorted {l : List ℕ} (h : l.Sorted (· ≤ ·)) (i : ℕ) :
    sortNodes (l.eraseIdx i) = l.eraseIdx i :=
  sortNodes_eq_of_sorted (List.Pairwise.eraseIdx i h)

/-- Commuting two index deletions: deleting index `j + 1` and then `i ≤ j`
is deleting index `i` and then `j`. -/
theorem eraseIdx_eraseIdx_comm : ∀ (l : List ℕ) (i j : ℕ), i ≤ j →
    (l.eraseIdx (j + 1)).eraseIdx i = (l.eraseIdx i).eraseIdx j
  | [], _, _, _ => by simp
  | _a :: _t, 0, _j, _ => by simp
  | _a :: t, i + 1, j + 1, h => by
    simp only [List.eraseIdx_cons_succ, List.cons.injEq, true_and]
    exact eraseIdx_eraseIdx_comm t i j (Nat.le_of_succ_le_succ h)
  | _a :: _t, _ + 1, 0, h => absurd h (by omega)

/-- The alternating double sum over all second-order boundary faces of a list
vanishes: the terms for deleting positions `(i, j)` with `j < i` and
`(j, i - 1)` cancel. -/
theorem doubleAltSum (t : List ℕ) (Q : List ℕ → Prop) [DecidablePred Q] :
    (∑ p ∈ Finset.range t.length ×ˢ Finset.range (t.length - 1),
      if Q ((t.eraseIdx p.1).eraseIdx p.2) then ((-1 : ℤ) ^ (p.1 + p.2)) else 0) = 0 := by
  refine Finset.sum_involution
    (fun p _ => if p.2 < p.1 then (p.2, p.1 - 1) else (p.2 + 1, p.1)) ?_ ?_ ?_ ?_
  · rintro ⟨i, j⟩ hp
    simp only [Finset.mem_product, Finset.mem_range] at hp
    by_cases hlt : j < i
    · simp only [if_pos hlt]
      have h1 : (t.eraseIdx i).eraseIdx j = (t.eraseIdx j).eraseIdx (i - 1) := by
        have := eraseIdx_eraseIdx_comm t j (i - 1) (by omega)
        rw [show i - 1 + 1 = i by omega] at this
        exact this
      have h2 : ((-1 : ℤ) ^ (i + j)) + ((-1 : ℤ) ^ (j + (i - 1))) = 0 := by
        have : i + j = (j + (i - 1)) + 1 := by omega
        rw [this, pow_succ]
        ring
      by_cases hq : Q ((t.eraseIdx i).eraseIdx j)
      · rw [if_pos hq, if_pos (h1 ▸ hq)]
        exact h2
      · rw [if_neg hq, if_neg (fun hc => hq (h1 ▸ hc))]
        simp
    · simp only [if_neg hlt]
      have h1 : (t.eraseIdx i).eraseIdx j = (t.eraseIdx (j + 1)).eraseIdx i :=
        (eraseIdx_eraseIdx_comm t i j (by omega)).symm
      have h2 : ((-1 : ℤ) ^ (i + j)) + ((-1 : ℤ) ^ (j + 1 + i)) = 0 := by
        have : j + 1 + i = (i + j) + 1 := by omega
        rw [this, pow_succ]
        ring
      by_cases hq : Q ((t.eraseIdx i).eraseIdx j)
      · rw [if_pos hq, if_pos (h1 ▸ hq)]
        exact h2
      · rw [if_neg hq, if_neg (fun hc => hq (h1 ▸ hc))]
        simp
  · rintro ⟨i, j⟩ hp _
    by_cases hlt : j < i <;> simp [hlt] <;> omega
  · rintro ⟨i, j⟩ hp
    simp only [Finset.mem_product, Finset.mem_range] at hp ⊢
    by_cases hlt : j < i <;> simp [hlt] <;> omega
  · rintro ⟨i, j⟩ hp
    by_cases hlt : j < i
    · simp only [if_pos hlt]
      have : ¬ (i - 1 < j) := by omega
      simp only [if_neg this]
      have hi : 0 < i := by omega
      simp [Nat.sub_add_cancel hi]
    · simp only [if_neg hlt]
      have : i < j + 1 := by omega
      simp [this]

theorem exBind_ok {ε α β : Type} (a : α) (f : α → Except ε β) :
    (Except.ok a >>= f) = f a := rfl

theorem exBind_err {ε α β : Type} (e : ε) (f : α → Except ε β) :
    ((Except.error e : Except ε α) >>= f) = Except.error e := rfl

theorem exPure {ε α : Type} (a : α) : (pure a : Except ε α) = Except.ok a := rfl

/-- Core of the chain-complex identity for the simplicial boundary: the
`(g, s)` entry of `B(r-1) @ B(r)` — a sum over the middle index — vanishes,
provided every face lookup for column `s` succeeds. -/
theorem scBdry_mul_sum_zero (Bo M T : List (List ℕ)) (g s : ℕ)
    (hs : s < T.length) (hlook : scLookOk M T = true) :
    (∑ f ∈ Finset.range M.length, scBdryEntry Bo M g f * scBdryEntry M T f s) = 0 := by
  classical
  set t := sortNodes (T.getD s []) with ht
  have hsort : t.Sorted (· ≤ ·) := List.sorted_insertionSort _ _
  have hmemT : T.getD s [] ∈ T := by
    rw [List.getD_eq_getElem _ _ hs]
    exact List.getElem_mem _
  have hlk : ∀ i, i < t.length → (dictIdx? M (t.eraseIdx i)).isSome := by
    intro i hi
    unfold scLookOk at hlook
    rw [List.all_eq_true] at hlook
    have h1 := hlook _ hmemT
    rw [List.all_eq_true] at h1
    rw [ht] at hi
    have h2 := h1 i (List.mem_range.mpr hi)
    rw [← ht] at h2
    exact h2
  have step1 : ∀ f, scBdryEntry M T f s =
      ∑ i ∈ Finset.range t.length,
        if dictIdx? M (t.eraseIdx i) = some f then (-1 : ℤ) ^ i else 0 := by
    intro f
    unfold scBdryEntry
    rw [← ht]
  calc (∑ f ∈ Finset.range M.length, scBdryEntry Bo M g f * scBdryEntry M T f s)
      = ∑ f ∈ Finset.range M.length, ∑ i ∈ Finset.range t.length,
          scBdryEntry Bo M g f *
            (if dictIdx? M (t.eraseIdx i) = some f then (-1 : ℤ) ^ i else 0) := by
        refine Finset.sum_congr rfl fun f _ => ?_
        rw [step1 f, Finset.mul_sum]
    _ = ∑ i ∈ Finset.range t.length, ∑ f ∈ Finset.range M.length,
          scBdryEntry Bo M g f *
            (if dictIdx? M (t.eraseIdx i) = some f then (-1 : ℤ) ^ i else 0) :=
        Finset.sum_comm
    _ = ∑ i ∈ Finset.range t.length, ∑ j ∈ Finset.range (t.length - 1),
          (if dictIdx? Bo ((t.eraseIdx i).eraseIdx j) = some g
           then (-1 : ℤ) ^ (i + j) else 0) := by
        refine Finset.sum_congr rfl fun i hi => ?_
        have hi' := Finset.mem_range.mp hi
        obtain ⟨fi, hfi⟩ := Option.isSome_iff_exists.mp (hlk i hi')
        obtain ⟨hfiM, hfig⟩ := dictIdx?_spec hfi
        rw [Finset.sum_eq_single_of_mem fi (Finset.mem_range.mpr hfiM)
          (fun b _ hb => by
            rw [hfi, if_neg (fun hc => hb ((Option.some.inj hc).symm)), mul_zero])]
        rw [hfi, if_pos rfl]
        unfold scBdryEntry
        rw [hfig, sortNodes_eraseIdx_of_sorted hsort i, List.length_eraseIdx_of_lt hi',
          Finset.sum_mul]
        refine Finset.sum_congr rfl fun j _ => ?_
        by_cases hq : dictIdx? Bo ((t.eraseIdx i).eraseIdx j) = some g
        · rw [if_pos hq, if_pos hq, ← pow_add, Nat.add_comm]
        · rw [if_neg hq, if_neg hq, zero_mul]
    _ = ∑ p ∈ Finset.range t.length ×ˢ Finset.range (t.length - 1),
          (if dictIdx? Bo ((t.eraseIdx p.1).eraseIdx p.2) = some g
           then (-1 : ℤ) ^ (p.1 + p.2) else 0) := by
        exact (Finset.sum_product (Finset.range t.length) (Finset.range (t.length - 1))
          (fun p => if dictIdx? Bo ((t.eraseIdx p.1).eraseIdx p.2) = some g
                    then (-1 : ℤ) ^ (p.1 + p.2) else 0)).symm
    _ = 0 := doubleAltSum t (fun x => dictIdx? Bo x = some g)

/-- Inversion of `scIncidence ... = .ok B`. -/
theorem scIncidence_ok {K : SC} {rank : ℤ} {B : Mat}
    (h : scIncidence K rank true = .ok B) :
    ∃ skelT skelM, scSkeleton K rank = .ok skelT ∧
      scSkeleton K (rank - 1) = .ok skelM ∧ scLookOk skelM skelT = true ∧
      B = Mat.ofFn skelM.length skelT.length (scBdryEntry skelM skelT) := by
  unfold scIncidence at h
  split at h
  · exact absurd h (by simp)
  split at h
  · exact absurd h (by simp)
  cases hT : scSkeleton K rank with
  | error e =>
    rw [hT, exBind_err] at h
    exact absurd h (by simp)
  | ok skelT =>
    rw [hT, exBind_ok] at h
    cases hM : scSkeleton K (rank - 1) with
    | error e =>
      rw [hM, exBind_err] at h
      exact absurd h (by simp)
    | ok skelM =>
      rw [hM, exBind_ok] at h
      split at h
      · refine ⟨skelT, skelM, rfl, rfl, by assumption, ?_⟩
        rw [exPure] at h
        cases h
        simp
      · exact absurd h (by simp)

/-- C1, amended, positive half: the simplicial chain-complex identity.  For
every `SimplicialComplex` state and every rank `r` at which both
`incidence_matrix(r - 1)` and `incidence_matrix(r)` are defined (return
without raising), their product is the zero matrix. -/
theorem sc_boundary_comp_zero (K : SC) (r : ℤ) (Bm B : Mat)
    (hBm : scIncidence K (r - 1) true = .ok Bm)
    (hB : scIncidence K r true = .ok B) :
    Mat.mul Bm B = Mat.zero Bm.rows B.cols := by
  obtain ⟨T, M, hT, hM, hlook, hBdef⟩ := scIncidence_ok hB
  obtain ⟨M', Bo, hM', hBo, _hlook', hBmdef⟩ := scIncidence_ok hBm
  rw [hM] at hM'
  injection hM' with hMM
  subst hMM
  subst hBdef hBmdef
  unfold Mat.mul Mat.zero
  simp only [Mat.rows_ofFn, Mat.cols_ofFn]
  refine Mat.ofFn_congr fun g hg j hj => ?_
  calc (∑ f ∈ Finset.range M.length,
          (Mat.ofFn Bo.length M.length (scBdryEntry Bo M)).entry g f *
            (Mat.ofFn M.length T.length (scBdryEntry M T)).entry f j)
      = ∑ f ∈ Finset.range M.length, scBdryEntry Bo M g f * scBdryEntry M T f j := by
        refine Finset.sum_congr rfl fun f hf => ?_
        have hf' := Finset.mem_range.mp hf
        rw [Mat.entry_ofFn, Mat.entry_ofFn, if_pos ⟨hg, hf'⟩, if_pos ⟨hf', hj⟩]
    _ = 0 := scBdry_mul_sum_zero Bo M T g j hj hlook

/-! ## Concrete instances -/

/-- The simplicial complex of the single maximal triangle `[0, 1, 2]`. -/
def Ksc012 : SC := insertSimplexD SC.empty [0, 1, 2]

/-- Its rank-1 incidence matrix. -/
def Bsc1 : Mat := ((scIncidence Ksc012 1 true).toOption).getD (Mat.zero 0 0)

/-- Its rank-2 incidence matrix. -/
def Bsc2 : Mat := ((scIncidence Ksc012 2 true).toOption).getD (Mat.zero 0 0)

/-- The path complex of the single maximal p-path `(0, 1, 2)`. -/
def Kpc012 : PC := addPathD (PC.empty false) [0, 1, 2]

/-- Its rank-1 incidence matrix. -/
def Bpc1 : Mat := ((pathIncidence Kpc012 1 true).toOption).getD (Mat.zero 0 0)

/-- Its rank-2 incidence matrix. -/
def Bpc2 : Mat := ((pathIncidence Kpc012 2 true).toOption).getD (Mat.zero 0 0)

/-- The simplicial complex of the single maximal edge `[0, 1]`. -/
def Ksc01 : SC := insertSimplexD SC.empty [0, 1]

/-- The simplicial complex of the two maximal edges `[0, 1]` and `[1, 2]`. -/
def Ksc2e : SC := insertSimplexD (insertSimplexD SC.empty [0, 1]) [1, 2]

/-- Witness for `sc_boundary_comp_zero` at the triangle complex, rank 2. -/
theorem sc_boundary_comp_zero_witness :
    Mat.mul Bsc1 Bsc2 = Mat.zero Bsc1.rows Bsc2.cols :=
  sc_boundary_comp_zero Ksc012 2 Bsc1 Bsc2 (by decide) (by decide)

/-- C1 fails for `PathComplex`: for the complex of the single maximal p-path
`(0, 1, 2)`, both `incidence_matrix(1)` and `incidence_matrix(2)` are defined
(rank 1 and 2 with `dim = 2`), yet their product is not zero — the boundary
face `(0, 2)` of `(0, 1, 2)` is skipped because it is not an allowed path,
so `∂∂ (0,1,2) = (2) - (0) ≠ 0`. -/
theorem pc_boundary_comp_nonzero :
    pathIncidence Kpc012 1 true = .ok Bpc1 ∧
    pathIncidence Kpc012 2 true = .ok Bpc2 ∧
    Mat.mul Bpc1 Bpc2 ≠ Mat.zero Bpc1.rows Bpc2.cols := by
  decide

/-! ## C3: rank-0 incidence and the range errors -/

theorem absM_zero (r c : ℕ) : Mat.absM (Mat.zero r c) = Mat.zero r c := by
  unfold Mat.absM Mat.zero
  simp only [Mat.rows_ofFn, Mat.cols_ofFn]
  refine Mat.ofFn_congr fun i hi j hj => ?_
  rw [Mat.entry_ofFn, if_pos ⟨hi, hj⟩]
  simp

theorem pathSkeleton_ok_of_lt {K : PC} {rank : ℤ} (h0 : 0 ≤ rank)
    (h : rank < (K.buckets.length : ℤ)) :
    pathSkeleton K rank = .ok (pathSkelN K rank.toNat) := by
  unfold pathSkeleton
  rw [if_pos ⟨h0, h⟩]

theorem scSkeleton_ok_of_lt {K : SC} {rank : ℤ} (h0 : 0 ≤ rank)
    (h : rank < (K.buckets.length : ℤ)) :
    scSkeleton K rank = .ok (scSkelN K rank.toNat) := by
  unfold scSkeleton
  rw [if_pos h, if_pos h0]

theorem pathIncidence_not_range {K : PC} {rank : ℤ} (signed : Bool)
    (h0 : 0 ≤ rank) (hle : rank ≤ (K.maxDim : ℤ)) (hlen : K.maxDim < K.buckets.length) :
    pathIncidence K rank signed ≠ .error .range := by
  unfold pathIncidence
  rw [if_neg (by omega), if_neg (by omega)]
  by_cases hz : rank = 0
  · rw [if_pos hz]
    simp
  · rw [if_neg hz]
    rw [pathSkeleton_ok_of_lt (by omega) (by omega), exBind_ok]
    rw [pathSkeleton_ok_of_lt (by omega) (by omega), exBind_ok]
    by_cases hl : pathLookOk K (pathSkelN K (rank - 1).toNat) (pathSkelN K rank.toNat) = true
    · rw [if_pos hl]
      simp [pure, Except.pure]
    · rw [if_neg hl]
      simp

theorem scIncidence_not_range {K : SC} {rank : ℤ} (signed : Bool)
    (h0 : 0 < rank) (hle : rank ≤ (K.maxDim : ℤ)) (hlen : K.maxDim < K.buckets.length) :
    scIncidence K rank signed ≠ .error .range := by
  unfold scIncidence
  rw [if_neg (by omega), if_neg (by omega)]
  rw [scSkeleton_ok_of_lt (by omega) (by omega), exBind_ok]
  rw [scSkeleton_ok_of_lt (by omega) (by omega), exBind_ok]
  by_cases hl : scLookOk (scSkelN K (rank - 1).toNat) (scSkelN K rank.toNat) = true
  · rw [if_pos hl]
    simp [pure, Except.pure]
  · rw [if_neg hl]
    simp

/-- C3, amended: `PathComplex.incidence_matrix(0)` returns the 0 × |nodes|
all-zero matrix and its `ValueError`s occur exactly at `rank < 0` or
`rank > dim`; `SimplicialComplex.incidence_matrix` instead raises for every
`rank ≤ 0` (its rank-0 zero-matrix branch is unreachable), its range
`ValueError`s occurring exactly at `rank ≤ 0` or `rank > dim`.  (Bucket
lists at least `max_dim + 1` long is a reachable-state invariant;
`KeyError`s at in-range ranks are a different failure mode, not counted
here.) -/
theorem incidence_rank_zero_and_range (K : PC) (S : SC) (rank : ℤ)
    (hK : K.maxDim < K.buckets.length) (hS : S.maxDim < S.buckets.length) :
    pathIncidence K 0 true = .ok (Mat.zero 0 (pathSkelN K 0).length) ∧
    (pathIncidence K rank true = .error .range ↔ rank < 0 ∨ (K.maxDim : ℤ) < rank) ∧
    (scIncidence S rank true = .error .range ↔ rank ≤ 0 ∨ (S.maxDim : ℤ) < rank) := by
  refine ⟨?_, ⟨?_, ?_⟩, ⟨?_, ?_⟩⟩
  · unfold pathIncidence
    rw [if_neg (by omega), if_neg (by omega), if_pos rfl, absM_zero]
  · intro h
    by_contra hc
    push_neg at hc
    exact pathIncidence_not_range true (by omega) (by omega) hK h
  · intro h
    unfold pathIncidence
    rcases h with h | h
    · rw [if_pos (by omega)]
    · rw [if_neg (by omega), if_pos (by omega)]
  · intro h
    by_contra hc
    push_neg at hc
    exact scIncidence_not_range true (by omega) (by omega) hS h
  · intro h
    unfold scIncidence
    rcases h with h | h
    · rw [if_pos (by omega)]
    · rw [if_neg (by omega), if_pos (by omega)]

/-- Witness for `incidence_rank_zero_and_range` at the concrete complexes. -/
theorem incidence_rank_zero_and_range_witness :
    pathIncidence Kpc012 0 true = .ok (Mat.zero 0 (pathSkelN Kpc012 0).length) ∧
    (pathIncidence Kpc012 1 true = .error .range ↔ (1 : ℤ) < 0 ∨ (Kpc012.maxDim : ℤ) < 1) ∧
    (scIncidence Ksc01 1 true = .error .range ↔ (1 : ℤ) ≤ 0 ∨ (Ksc01.maxDim : ℤ) < 1) :=
  incidence_rank_zero_and_range Kpc012 Ksc01 1 (by decide) (by decide)

/-- C3 fails for `SimplicialComplex`: `incidence_matrix(0)` on the complex
of the single edge `[0, 1]` raises (`rank <= 0` check) instead of returning
a `0 × 2` zero matrix; 0 is neither negative nor above `dim = 1`. -/
theorem scIncidence_rank_zero_raises :
    scIncidence Ksc01 0 true = .error .range ∧ Ksc01.maxDim = 1 := by
  decide

/-! ## C4: skeleton ordering and range errors -/

instance : IsTotal (List ℕ) strKeyLe :=
  ⟨fun a b => le_total (strKey a) (strKey b)⟩

instance : IsTrans (List ℕ) strKeyLe :=
  ⟨fun _ _ _ h1 h2 => le_trans h1 h2⟩

instance : IsTotal (List ℕ) natTupLe :=
  ⟨fun a b => le_total a b⟩

instance : IsTrans (List ℕ) natTupLe :=
  ⟨fun _ _ _ h1 h2 => le_trans h1 h2⟩

/-- C4, amended: at ranks `0 ≤ rank < len(faces_dict)` both `skeleton`s
return the rank bucket sorted — `PathComplex` by the lexicographic order of
the stringified node tuples, but `SimplicialComplex` by the plain
lexicographic order of the node tuples themselves (not stringified); and
`PathComplex.skeleton` raises exactly when `rank < 0` or
`rank ≥ len(faces_dict)` — after removals `len(faces_dict)` can exceed
`max_dim + 1`, so a rank above `max_dim` need not raise.
(`SimplicialComplex.skeleton` never raises on negative ranks `≥ -len`,
which wrap around Python-style.) -/
theorem skeleton_sorted_and_range (K : PC) (S : SC) (rank : ℤ)
    (h0 : 0 ≤ rank) (hK : rank < (K.buckets.length : ℤ))
    (hS : rank < (S.buckets.length : ℤ)) :
    (pathSkeleton K rank = .ok (pathSkelN K rank.toNat) ∧
      (pathSkelN K rank.toNat).Sorted strKeyLe ∧
      (pathSkelN K rank.toNat).Perm (bucketKeys (K.buckets.getD rank.toNat [])) ∧
      scSkeleton S rank = .ok (scSkelN S rank.toNat) ∧
      (scSkelN S rank.toNat).Sorted natTupLe ∧
      (scSkelN S rank.toNat).Perm (S.buckets.getD rank.toNat [])) ∧
    ∀ r : ℤ, pathSkeleton K r = .error .range ↔ r < 0 ∨ (K.buckets.length : ℤ) ≤ r := by
  refine ⟨⟨pathSkeleton_ok_of_lt h0 hK, List.sorted_insertionSort _ _,
    List.perm_insertionSort _ _, scSkeleton_ok_of_lt h0 hS,
    List.sorted_insertionSort _ _, List.perm_insertionSort _ _⟩, fun r => ⟨?_, ?_⟩⟩
  · intro h
    by_contra hc
    push_neg at hc
    rw [pathSkeleton_ok_of_lt hc.1 hc.2] at h
    exact absurd h (by simp)
  · intro h
    unfold pathSkeleton
    rw [if_neg (by rintro ⟨h1, h2⟩; omega)]

/-- Witness for `skeleton_sorted_and_range` at the concrete complexes,
rank 1. -/
theorem skeleton_sorted_and_range_witness :
    (pathSkeleton Kpc012 1 = .ok (pathSkelN Kpc012 (1 : ℤ).toNat) ∧
      (pathSkelN Kpc012 (1 : ℤ).toNat).Sorted strKeyLe ∧
      (pathSkelN Kpc012 (1 : ℤ).toNat).Perm
        (bucketKeys (Kpc012.buckets.getD (1 : ℤ).toNat [])) ∧
      scSkeleton Ksc012 1 = .ok (scSkelN Ksc012 (1 : ℤ).toNat) ∧
      (scSkelN Ksc012 (1 : ℤ).toNat).Sorted natTupLe ∧
      (scSkelN Ksc012 (1 : ℤ).toNat).Perm (Ksc012.buckets.getD (1 : ℤ).toNat [])) ∧
    ∀ r : ℤ, pathSkeleton Kpc012 r = .error .range ↔
      r < 0 ∨ (Kpc012.buckets.length : ℤ) ≤ r :=
  skeleton_sorted_and_range Kpc012 Ksc012 1 (by omega) (by decide) (by decide)

/-- The path complex of `(0, 1)` with node `1` removed: `max_dim` drops to 0
but the bucket list keeps its length 2. -/
def Kpc01r : PC :=
  ((removeNodes (addPathD (PC.empty false) [0, 1]) [1]).toOption).getD (PC.empty false)

/-- The simplicial complex with the two isolated nodes `2` and `10`. -/
def Ksc210 : SC := insertSimplexD (insertSimplexD SC.empty [2]) [10]

/-- C4 fails as stated: (i) after a removal `PathComplex.skeleton(1)` returns
an empty sequence instead of raising although `1 > max_dim = 0`;
(ii) `SimplicialComplex.skeleton(0)` on the nodes `{2, 10}` returns them in
plain numeric tuple order, which differs from the stringified order
(`"10" < "2"`); (iii) `SimplicialComplex.skeleton(-1)` returns the top
bucket instead of raising. -/
theorem skeleton_claim_fails :
    (pathSkeleton Kpc01r 1 = .ok [] ∧ Kpc01r.maxDim = 0) ∧
    (scSkeleton Ksc210 0 = .ok [[2], [10]] ∧ sortByStr [[2], [10]] = [[10], [2]]) ∧
    scSkeleton Ksc01 (-1) = .ok [[0, 1]] := by
  decide

/-! ## C5: the k-hop operators -/

theorem exMap_ok {ε α β : Type} (a : α) (f : α → β) :
    (Except.ok a : Except ε α).map f = Except.ok (f a) := rfl

/-- A successful `incidence_matrix` call pins its rank inside `(0, dim]`. -/
theorem scIncidence_bounds {K : SC} {rank : ℤ} {signed : Bool} {B : Mat}
    (h : scIncidence K rank signed = .ok B) :
    0 < rank ∧ rank ≤ (K.maxDim : ℤ) := by
  unfold scIncidence at h
  split at h
  · exact absurd h (by simp)
  split at h
  · exact absurd h (by simp)
  rename_i h1 h2
  exact ⟨by omega, by omega⟩

/-- C5, amended: `np.power` applied to the sparse adjacency/coadjacency
matrix dispatches (via a 0-d object array) to `spmatrix.__pow__`, the
matrix power.  Wherever `incidence_matrix(rank)` is defined: at the top
rank, `k_hop_incidence_matrix(dim, k) = inc @ coadj ** k` and
`k_hop_coincidence_matrix(dim, k) = coadj ** k @ coinc`, which at `k = 0`
degenerate to the plain incidence/coincidence matrix (the 0-th matrix power
is the identity); at an interior rank the adjacency and coadjacency
contributions are summed, so `k = 0` yields twice the incidence matrix, not
the plain one.  (At rank 0 the operator raises outright; see the
counterexample.) -/
theorem sc_k_hop_matrix_power (K : SC) (rank : ℤ) (k : ℕ) (B : Mat)
    (hB : scIncidence K rank true = .ok B) :
    (rank = (K.maxDim : ℤ) →
      scKHopIncidence K rank k =
        .ok (Mat.mul B (Mat.matPow (Mat.setdiag0 (Mat.mul (Mat.tr B) B)) k)) ∧
      scKHopIncidence K rank 0 = .ok B ∧
      scKHopCoincidence K rank k =
        .ok (Mat.mul (Mat.matPow (Mat.setdiag0 (Mat.mul (Mat.tr B) B)) k) (Mat.tr B)) ∧
      scKHopCoincidence K rank 0 = .ok (Mat.tr B)) ∧
    ∀ Bn, rank ≠ (K.maxDim : ℤ) → scIncidence K (rank + 1) true = .ok Bn →
      scKHopIncidence K rank k =
        .ok (Mat.add (Mat.mul B (Mat.matPow (Mat.setdiag0 (Mat.mul Bn (Mat.tr Bn))) k))
          (Mat.mul B (Mat.matPow (Mat.setdiag0 (Mat.mul (Mat.tr B) B)) k))) ∧
      scKHopIncidence K rank 0 = .ok (Mat.add B B) := by
  obtain ⟨hpos, hle⟩ := scIncidence_bounds hB
  obtain ⟨T, M, hT, hM, hlook, hBdef⟩ := scIncidence_ok hB
  have hco : scCoadjacency K rank true =
      .ok (Mat.setdiag0 (Mat.mul (Mat.tr B) B)) := by
    unfold scCoadjacency scDownLaplacian
    rw [if_pos ⟨hle, hpos⟩, hB, exBind_ok]
    rfl
  have h0 : Mat.matPow (Mat.setdiag0 (Mat.mul (Mat.tr B) B)) 0 = Mat.eyeM B.cols := rfl
  constructor
  · intro hrk
    have hmain : ∀ k' : ℕ, scKHopIncidence K rank k' =
        .ok (Mat.mul B (Mat.matPow (Mat.setdiag0 (Mat.mul (Mat.tr B) B)) k')) := by
      intro k'
      unfold scKHopIncidence
      rw [hB, exBind_ok, if_pos hrk, hco, exBind_ok]
      rfl
    have hmainC : ∀ k' : ℕ, scKHopCoincidence K rank k' =
        .ok (Mat.mul (Mat.matPow (Mat.setdiag0 (Mat.mul (Mat.tr B) B)) k') (Mat.tr B)) := by
      intro k'
      unfold scKHopCoincidence scCoincidence
      rw [hB, exMap_ok, exBind_ok, if_pos hrk, hco, exBind_ok]
      rfl
    refine ⟨hmain k, ?_, hmainC k, ?_⟩
    · rw [hmain 0, h0, hBdef, Mat.cols_ofFn, Mat.mul_eye]
    · rw [hmainC 0, h0]
      exact congrArg Except.ok (Mat.eye_mul B.cols B.rows fun i j => B.entry j i)
  · intro Bn hne hBn
    have hlt : rank < (K.maxDim : ℤ) := lt_of_le_of_ne hle hne
    have hadj : scAdjacency K rank true =
        .ok (Mat.setdiag0 (Mat.mul Bn (Mat.tr Bn))) := by
      unfold scAdjacency scUpLaplacian
      rw [if_pos (Or.inr hlt), hBn, exBind_ok]
      rfl
    have hmain : ∀ k' : ℕ, scKHopIncidence K rank k' =
        .ok (Mat.add (Mat.mul B (Mat.matPow (Mat.setdiag0 (Mat.mul Bn (Mat.tr Bn))) k'))
          (Mat.mul B (Mat.matPow (Mat.setdiag0 (Mat.mul (Mat.tr B) B)) k'))) := by
      intro k'
      unfold scKHopIncidence
      rw [hB, exBind_ok, if_neg hne, hadj, exBind_ok, if_neg (by omega : ¬rank = 0),
        hco, exBind_ok]
      rfl
    refine ⟨hmain k, ?_⟩
    obtain ⟨T', M', hT', hM', hlook', hBndef⟩ := scIncidence_ok hBn
    have he : rank + 1 - 1 = rank := by omega
    rw [he, hT] at hM'
    injection hM' with hMT
    subst hMT
    have h0a : Mat.matPow (Mat.setdiag0 (Mat.mul Bn (Mat.tr Bn))) 0 =
        Mat.eyeM Bn.rows := rfl
    rw [hmain 0, h0a, h0, hBdef, hBndef, Mat.rows_ofFn, Mat.cols_ofFn, Mat.mul_eye]

/-- Witness for `sc_k_hop_matrix_power` at the triangle complex (`dim = 2`),
top rank `2`, `k = 1`. -/
theorem sc_k_hop_matrix_power_witness :
    ((2 : ℤ) = (Ksc012.maxDim : ℤ) →
      scKHopIncidence Ksc012 2 1 =
        .ok (Mat.mul Bsc2 (Mat.matPow (Mat.setdiag0 (Mat.mul (Mat.tr Bsc2) Bsc2)) 1)) ∧
      scKHopIncidence Ksc012 2 0 = .ok Bsc2 ∧
      scKHopCoincidence Ksc012 2 1 =
        .ok (Mat.mul (Mat.matPow (Mat.setdiag0 (Mat.mul (Mat.tr Bsc2) Bsc2)) 1)
          (Mat.tr Bsc2)) ∧
      scKHopCoincidence Ksc012 2 0 = .ok (Mat.tr Bsc2)) ∧
    ∀ Bn, (2 : ℤ) ≠ (Ksc012.maxDim : ℤ) →
      scIncidence Ksc012 (2 + 1) true = .ok Bn →
      scKHopIncidence Ksc012 2 1 =
        .ok (Mat.add (Mat.mul Bsc2 (Mat.matPow (Mat.setdiag0 (Mat.mul Bn (Mat.tr Bn))) 1))
          (Mat.mul Bsc2 (Mat.matPow (Mat.setdiag0 (Mat.mul (Mat.tr Bsc2) Bsc2)) 1))) ∧
      scKHopIncidence Ksc012 2 0 = .ok (Mat.add Bsc2 Bsc2) :=
  sc_k_hop_matrix_power Ksc012 2 1 Bsc2 (by decide)

/-- C5 fails as stated: (i) `k_hop_incidence_matrix(0, k)` raises — it calls
`incidence_matrix(0)`, which rejects `rank <= 0` — although the claim
prescribes `inc @ adj ** k` at rank 0; and (ii) at the interior rank 1 of
the full triangle (`dim = 2`), the adjacency and coadjacency contributions
are summed, so `k_hop_incidence_matrix(1, 0)` is twice the rank-1 incidence
matrix, not the plain incidence matrix as the claim's `k = 0` remark
prescribes. -/
theorem sc_k_hop_claim_fails :
    scKHopIncidence Ksc2e 0 0 = .error .range ∧
    scIncidence Ksc012 1 true = .ok Bsc1 ∧
    scKHopIncidence Ksc012 1 0 = .ok (Mat.add Bsc1 Bsc1) ∧
    Mat.add Bsc1 Bsc1 ≠ Bsc1 := by
  decide

/-! ## C6: duplicate insert = attribute merge -/

theorem getD_set_self {α : Type} {l : List α} {i : ℕ} (h : i < l.length) (a d : α) :
    (l.set i a).getD i d = a := by
  rw [List.getD_eq_getElem?_getD, List.getElem?_set_self h]
  rfl

theorem getD_set_ne {α : Type} {l : List α} {i j : ℕ} (h : i ≠ j) (a d : α) :
    (l.set i a).getD j d = l.getD j d := by
  rw [List.getD_eq_getElem?_getD, List.getElem?_set_ne h, ← List.getD_eq_getElem?_getD]

/-- Look up a key's attribute store in a bucket. -/
def bucketGet (b : Bucket) (k : List ℕ) : Option AttrD :=
  (b.find? fun kv => kv.1 = k).map Prod.snd

theorem bucketGet_merge (b : Bucket) (c : List ℕ) (a : AttrD) :
    bucketGet (b.map fun kv => if kv.1 = c then (kv.1, dictUpdate kv.2 a) else kv) c =
      (bucketGet b c).map fun d => dictUpdate d a := by
  induction b with
  | nil => rfl
  | cons kv rest ih =>
    by_cases h : kv.1 = c
    · simp [bucketGet, h]
    · simp only [List.map_cons, if_neg h]
      unfold bucketGet
      rw [List.find?_cons_of_neg _ (by simpa using h), List.find?_cons_of_neg _ (by simpa using h)]
      exact ih

/-- C6: inserting a path `c` that is already present (with any attribute
mapping) is exactly an attribute merge on `c`'s store: the buckets keep the
same keys at every rank (hence the same cardinalities), `max_dim` is
unchanged, and `c`'s attribute store becomes its old store `dict.update`d
with the new attributes. -/
theorem addPath_duplicate_merge (K : PC) (c : List ℕ) (a : AttrD)
    (hnd : c.dedup.length = c.length)
    (hval : (decide (c.length > 1) && strGt (c.headD 0) (c.getLastD 0) && !K.reserve) = false)
    (hmem : c ∈ bucketKeys (K.buckets.getD (c.length - 1) []))
    (hmd : c.length - 1 ≤ K.maxDim) :
    addPath K c a = .ok { K with buckets := mergeAttrsAt K.buckets c a } ∧
    (mergeAttrsAt K.buckets c a).length = K.buckets.length ∧
    (∀ r, bucketKeys ((mergeAttrsAt K.buckets c a).getD r []) =
      bucketKeys (K.buckets.getD r [])) ∧
    bucketGet ((mergeAttrsAt K.buckets c a).getD (c.length - 1) []) c =
      (bucketGet (K.buckets.getD (c.length - 1) []) c).map fun d => dictUpdate d a := by
  have hlen : c.length - 1 < K.buckets.length := by
    by_contra hc
    push_neg at hc
    rw [List.getD_eq_getElem?_getD, List.getElem?_eq_none (by simpa using hc)] at hmem
    simp [bucketKeys] at hmem
  have hgrow : growBuckets K.buckets c.length = K.buckets := by
    unfold growBuckets
    have h0 : c.length - K.buckets.length = 0 := by omega
    rw [h0]
    simp
  have hmax : max K.maxDim (c.length - 1) = K.maxDim := Nat.max_eq_left hmd
  have hkeys : ∀ r, bucketKeys ((mergeAttrsAt K.buckets c a).getD r []) =
      bucketKeys (K.buckets.getD r []) := by
    intro r
    unfold mergeAttrsAt
    by_cases hr : c.length - 1 = r
    · subst hr
      rw [getD_set_self hlen]
      unfold bucketKeys
      rw [List.map_map]
      refine List.map_congr_left fun kv _ => ?_
      by_cases h : kv.1 = c <;> simp [h]
    · rw [getD_set_ne hr]
  refine ⟨?_, by unfold mergeAttrsAt; exact List.length_set .., hkeys, ?_⟩
  · unfold addPath
    rw [if_neg (fun hc => hc hnd.symm),
      if_neg (fun hc => by rw [hval] at hc; exact Bool.false_ne_true hc)]
    simp only [hgrow, hmax]
    rw [if_pos hmem]
  · unfold mergeAttrsAt
    rw [getD_set_self hlen]
    exact bucketGet_merge _ c a

/-- Witness for `addPath_duplicate_merge`: re-insert `(0, 1)` into the
complex of `(0, 1, 2)` with a fresh attribute. -/
theorem addPath_duplicate_merge_witness :
    addPath Kpc012 [0, 1] [(7, 3)] =
      .ok { Kpc012 with buckets := mergeAttrsAt Kpc012.buckets [0, 1] [(7, 3)] } ∧
    (mergeAttrsAt Kpc012.buckets [0, 1] [(7, 3)]).length = Kpc012.buckets.length ∧
    (∀ r, bucketKeys ((mergeAttrsAt Kpc012.buckets [0, 1] [(7, 3)]).getD r []) =
      bucketKeys (Kpc012.buckets.getD r [])) ∧
    bucketGet ((mergeAttrsAt Kpc012.buckets [0, 1] [(7, 3)]).getD 1 []) [0, 1] =
      (bucketGet (Kpc012.buckets.getD 1 []) [0, 1]).map fun d => dictUpdate d [(7, 3)] :=
  addPath_duplicate_merge Kpc012 [0, 1] [(7, 3)] (by decide) (by decide) (by decide)
    (by decide)

/-! ## C2: closure of the face lattice under insertion -/

theorem canonPath_length (reserve : Bool) (p : List ℕ) :
    (canonPath reserve p).length = p.length := by
  unfold canonPath
  split
  · exact List.length_reverse p
  · rfl

theorem subPathsList_length {p sub : List ℕ} (h : sub ∈ subPathsList p) :
    1 ≤ sub.length ∧ sub.length ≤ p.length := by
  unfold subPathsList at h
  simp only [List.mem_flatMap, List.mem_map, List.mem_range] at h
  obtain ⟨k, hk, i, hi, rfl⟩ := h
  rw [List.length_take, List.length_drop]
  omega

theorem growBuckets_length (bs : List Bucket) (n : ℕ) :
    (growBuckets bs n).length = bs.length + (n - bs.length) := by
  unfold growBuckets
  rw [List.length_append, List.length_replicate]

theorem growBuckets_getD (bs : List Bucket) (n r : ℕ) :
    (growBuckets bs n).getD r [] = bs.getD r [] := by
  unfold growBuckets
  by_cases hr : r < bs.length
  · rw [List.getD_eq_getElem?_getD, List.getElem?_append_left hr,
      ← List.getD_eq_getElem?_getD]
  · rw [List.getD_eq_getElem?_getD, List.getElem?_append_right (Nat.le_of_not_lt hr),
      List.getElem?_replicate]
    rw [List.getD_eq_getElem?_getD (bs) r, List.getElem?_eq_none (Nat.le_of_not_lt hr)]
    split <;> rfl

theorem bucketKeys_mergeAttrsAt (bs : List Bucket) (p : List ℕ) (a : AttrD) (r : ℕ) :
    bucketKeys ((mergeAttrsAt bs p a).getD r []) = bucketKeys (bs.getD r []) := by
  unfold mergeAttrsAt
  by_cases hlen : p.length - 1 < bs.length
  · by_cases hr : p.length - 1 = r
    · subst hr
      rw [getD_set_self hlen]
      unfold bucketKeys
      rw [List.map_map]
      refine List.map_congr_left fun kv _ => ?_
      by_cases h : kv.1 = p <;> simp [h]
    · rw [getD_set_ne hr]
  · rw [List.set_eq_of_length_le (Nat.le_of_not_lt hlen)]

theorem updateEntry_fst_length (bs : List Bucket) (p : List ℕ) :
    (updateEntry bs p).1.length = bs.length := by
  unfold updateEntry
  split
  · rfl
  · exact List.length_set ..

theorem updateEntry_mem_self {bs : List Bucket} {p : List ℕ}
    (hl : p.length - 1 < bs.length) :
    p ∈ bucketKeys ((updateEntry bs p).1.getD (p.length - 1) []) := by
  unfold updateEntry
  by_cases h : p ∈ bucketKeys (bs.getD (p.length - 1) [])
  · rw [if_pos h]
    exact h
  · rw [if_neg h]
    dsimp only
    rw [getD_set_self hl]
    unfold bucketKeys
    rw [List.map_append]
    exact List.mem_append_right _ (by simp)

theorem updateEntry_mem_mono {bs : List Bucket} {p q : List ℕ} {r : ℕ}
    (h : q ∈ bucketKeys (bs.getD r [])) :
    q ∈ bucketKeys ((updateEntry bs p).1.getD r []) := by
  unfold updateEntry
  by_cases hp : p ∈ bucketKeys (bs.getD (p.length - 1) [])
  · rw [if_pos hp]
    exact h
  · rw [if_neg hp]
    dsimp only
    by_cases hlen : p.length - 1 < bs.length
    · by_cases hr : p.length - 1 = r
      · subst hr
        rw [getD_set_self hlen]
        unfold bucketKeys at h ⊢
        rw [List.map_append]
        exact List.mem_append_left _ h
      · rw [getD_set_ne hr]
        exact h
    · rw [List.set_eq_of_length_le (Nat.le_of_not_lt hlen)]
      exact h

theorem foldl_expandStep_mono (reserve : Bool) :
    ∀ (L : List (List ℕ)) (acc : List Bucket × List (List ℕ)) (q : List ℕ) (r : ℕ),
      q ∈ bucketKeys (acc.1.getD r []) →
      q ∈ bucketKeys ((L.foldl (expandStep reserve) acc).1.getD r [])
  | [], _, _, _, h => h
  | x :: L, acc, q, r, h => by
    rw [List.foldl_cons]
    exact foldl_expandStep_mono reserve L _ q r (updateEntry_mem_mono h)

theorem foldl_expandStep_mem (reserve : Bool) :
    ∀ (L : List (List ℕ)) (acc : List Bucket × List (List ℕ)),
      (∀ sub ∈ L, (canonPath reserve sub).length - 1 < acc.1.length) →
      ∀ sub ∈ L, canonPath reserve sub ∈
        bucketKeys ((L.foldl (expandStep reserve) acc).1.getD
          ((canonPath reserve sub).length - 1) [])
  | [], _, _, _, hmem => absurd hmem (List.not_mem_nil _)
  | x :: L, acc, hlen, sub, hmem => by
    rw [List.foldl_cons]
    rcases List.mem_cons.mp hmem with rfl | hmem'
    · exact foldl_expandStep_mono reserve L _ _ _
        (updateEntry_mem_self (hlen sub (List.mem_cons_self _ _)))
    · refine foldl_expandStep_mem reserve L (expandStep reserve acc x) ?_ sub hmem'
      intro s hs
      have : (expandStep reserve acc x).1.length = acc.1.length :=
        updateEntry_fst_length ..
      rw [this]
      exact hlen s (List.mem_cons_of_mem _ hs)

theorem scInsStep_length (bs : List (List (List ℕ))) (f : List ℕ) :
    (scInsStep bs f).length = bs.length := by
  unfold scInsStep
  split
  · rfl
  · exact List.length_set ..

theorem scInsStep_mem_self {bs : List (List (List ℕ))} {f : List ℕ}
    (hl : f.length - 1 < bs.length) :
    f ∈ (scInsStep bs f).getD (f.length - 1) [] := by
  unfold scInsStep
  by_cases h : f ∈ bs.getD (f.length - 1) []
  · rw [if_pos h]
    exact h
  · rw [if_neg h, getD_set_self hl]
    exact List.mem_append_right _ (by simp)

theorem scInsStep_mem_mono {bs : List (List (List ℕ))} {f q : List ℕ} {r : ℕ}
    (h : q ∈ bs.getD r []) :
    q ∈ (scInsStep bs f).getD r [] := by
  unfold scInsStep
  by_cases hp : f ∈ bs.getD (f.length - 1) []
  · rw [if_pos hp]
    exact h
  · rw [if_neg hp]
    by_cases hlen : f.length - 1 < bs.length
    · by_cases hr : f.length - 1 = r
      · subst hr
        rw [getD_set_self hlen]
        exact List.mem_append_left _ h
      · rw [getD_set_ne hr]
        exact h
    · rw [List.set_eq_of_length_le (Nat.le_of_not_lt hlen)]
      exact h

theorem foldl_scInsStep_mono :
    ∀ (L : List (List ℕ)) (bs : List (List (List ℕ))) (q : List ℕ) (r : ℕ),
      q ∈ bs.getD r [] → q ∈ (L.foldl scInsStep bs).getD r []
  | [], _, _, _, h => h
  | x :: L, bs, q, r, h => by
    rw [List.foldl_cons]
    exact foldl_scInsStep_mono L _ q r (scInsStep_mem_mono h)

theorem foldl_scInsStep_mem :
    ∀ (L : List (List ℕ)) (bs : List (List (List ℕ))),
      (∀ f ∈ L, f.length - 1 < bs.length) →
      ∀ f ∈ L, f ∈ (L.foldl scInsStep bs).getD (f.length - 1) []
  | [], _, _, _, hmem => absurd hmem (List.not_mem_nil _)
  | x :: L, bs, hlen, f, hmem => by
    rw [List.foldl_cons]
    rcases List.mem_cons.mp hmem with rfl | hmem'
    · exact foldl_scInsStep_mono L _ _ _
        (scInsStep_mem_self (hlen f (List.mem_cons_self _ _)))
    · refine foldl_scInsStep_mem L (scInsStep bs x) ?_ f hmem'
      intro g hg
      rw [scInsStep_length]
      exact hlen g (List.mem_cons_of_mem _ hg)

/-- C2: after a successful insert of a maximal cell, every sub-face of the
cell is present in the lattice at its rank — for a `PathComplex` the
canonical form of every contiguous sub-sequence of the path, and for a
`SimplicialComplex` every non-empty subset (as a sublist of the sorted node
list).  The closure hypotheses on the pre-states cover the early-return
branch, in which the cell is already present and its sub-faces must have
been inserted with it. -/
theorem insert_closure (K : PC) (c : List ℕ) (a : AttrD) (K' : PC)
    (S : SC) (s : List ℕ) (S' : SC)
    (hKc : pcClosed K) (hadd : addPath K c a = .ok K')
    (hSc : scClosed S) (hins : insertSimplex S s = .ok S') :
    (∀ sub ∈ subPathsList c, pcFacesMem K' (canonPath K.reserve sub)) ∧
    (∀ f ∈ (sortNodes s).sublists, f ≠ [] → scFacesMem S' f) := by
  constructor
  · intro sub hsub
    unfold addPath at hadd
    split at hadd
    · exact absurd hadd (by simp)
    split at hadd
    · exact absurd hadd (by simp)
    have hsl := subPathsList_length hsub
    have hgl : c.length ≤ (growBuckets K.buckets c.length).length := by
      rw [growBuckets_length]
      omega
    split at hadd
    · -- early return: `c` is already present, so its sub-paths are present
      -- in `K` by the closure hypothesis, and the attribute merge keeps all
      -- bucket keys.
      rename_i hpres
      have hlen : c.length - 1 < K.buckets.length := by
        by_contra hc
        push_neg at hc
        rw [growBuckets_getD, List.getD_eq_getElem?_getD,
          List.getElem?_eq_none (by simpa using hc)] at hpres
        simp [bucketKeys] at hpres
      have hbmem : K.buckets.getD (c.length - 1) [] ∈ K.buckets := by
        rw [List.getD_eq_getElem _ _ hlen]
        exact List.getElem_mem _
      rw [growBuckets_getD] at hpres
      obtain ⟨kv, hkv, hkv1⟩ := List.mem_map.mp hpres
      have hK : pcFacesMem K (canonPath K.reserve sub) :=
        hKc _ hbmem kv hkv sub (by rw [hkv1]; exact hsub)
      have hbk : K' = { K with
          buckets := mergeAttrsAt (growBuckets K.buckets c.length) c a
          maxDim := max K.maxDim (c.length - 1) } := by
        cases hadd
        rfl
      rw [hbk]
      unfold pcFacesMem at hK ⊢
      dsimp only
      rw [bucketKeys_mergeAttrsAt, growBuckets_getD]
      exact hK
    · -- new path: the expansion loop registered every canonical contiguous
      -- sub-path.
      have hbk : K'.buckets =
          mergeAttrsAt (expandAll K.reserve (growBuckets K.buckets c.length) c).1 c a := by
        cases hadd
        rfl
      unfold pcFacesMem
      rw [hbk, bucketKeys_mergeAttrsAt]
      refine foldl_expandStep_mem K.reserve (subPathsList c)
        (growBuckets K.buckets c.length, []) ?_ sub hsub
      intro s' hs'
      have h1 := subPathsList_length hs'
      rw [canonPath_length]
      dsimp only
      omega
  · intro f hf hfne
    unfold insertSimplex at hins
    split at hins
    · exact absurd hins (by simp)
    have hflen : f.length ≤ (sortNodes s).length :=
      (List.mem_sublists.mp hf).length_le
    have hf1 : 1 ≤ f.length := by
      cases f with
      | nil => exact absurd rfl hfne
      | cons x t => simp
    split at hins
    · -- early return: the simplex is present, so by closure its sublists are.
      rename_i hpres
      have hSS : S' = S := by
        cases hins
        rfl
      rw [hSS]
      have hlen : (sortNodes s).length - 1 < S.buckets.length := by
        by_contra hc
        push_neg at hc
        rw [List.getD_eq_getElem?_getD, List.getElem?_eq_none (by simpa using hc)] at hpres
        simp at hpres
      have hbmem : S.buckets.getD ((sortNodes s).length - 1) [] ∈ S.buckets := by
        rw [List.getD_eq_getElem _ _ hlen]
        exact List.getElem_mem _
      exact hSc _ hbmem _ hpres f hf hfne
    · have hbk : S'.buckets =
          ((sortNodes s).sublists.filter (· ≠ [])).foldl scInsStep
            (S.buckets ++ List.replicate ((sortNodes s).length - S.buckets.length) []) := by
        cases hins
        rfl
      unfold scFacesMem
      rw [hbk]
      refine foldl_scInsStep_mem _ _ ?_ f ?_
      · intro g hg
        have hg' := List.mem_filter.mp hg
        have hgl : g.length ≤ (sortNodes s).length :=
          (List.mem_sublists.mp hg'.1).length_le
        rw [List.length_append, List.length_replicate]
        omega
      · rw [List.mem_filter]
        exact ⟨hf, by simpa using hfne⟩

/-- Witness for `insert_closure`: insert the p-path `(0, 1, 2)` into the
empty path complex and the triangle `[0, 1, 2]` into the empty simplicial
complex. -/
theorem insert_closure_witness :
    (∀ sub ∈ subPathsList [0, 1, 2],
      pcFacesMem Kpc012 (canonPath (PC.empty false).reserve sub)) ∧
    (∀ f ∈ (sortNodes [0, 1, 2]).sublists, f ≠ [] → scFacesMem Ksc012 f) :=
  insert_closure (PC.empty false) [0, 1, 2] [] Kpc012 SC.empty [0, 1, 2] Ksc012
    (by decide) (by decide) (by decide) (by decide)

/-! ## C7: validation failures are atomic -/

/-- C7: an insertion request that fails validation — duplicate nodes, or a
first node string-comparing greater than the last outside reserve-order
mode — raises the `ValueError` before any mutation: both checks precede
every state update in `add_path`, so the embedded operation returns the
error and no modified state exists (the complex is left exactly as it
was). -/
theorem addPath_validation_atomic (K : PC) (c : List ℕ) (a : AttrD)
    (h : c.dedup.length ≠ c.length ∨
      (1 < c.length ∧ strGt (c.headD 0) (c.getLastD 0) = true ∧ K.reserve = false)) :
    addPath K c a = .error .validation := by
  unfold addPath
  by_cases hd : c.length ≠ c.dedup.length
  · rw [if_pos hd]
  · rcases h with h | ⟨h1, h2, h3⟩
    · exact absurd (fun hc => hd (Ne.symm hc)) (by simpa using h)
    · rw [if_neg hd, if_pos (by rw [decide_eq_true h1, h2, h3]; rfl)]

/-- Witness for `addPath_validation_atomic`: inserting `(1, 0)` (first node
string-greater than last) into the complex of `(0, 1, 2)` raises. -/
theorem addPath_validation_atomic_witness :
    addPath Kpc012 [1, 0] [] = .error .validation :=
  addPath_validation_atomic Kpc012 [1, 0] [] (by decide)

/-! ## C8: the path complex of the graph 0 - 1 - 2 -/

/-- The undirected graph with edges `(0, 1)` and `(1, 2)`. -/
def G012 : UGraph := ⟨[0, 1, 2], [(0, 1), (1, 2)]⟩

/-- The path complex constructed from it with `max_rank = 3`. -/
def KpcG : PC := ((pcFromGraph G012 false 3).toOption).getD (PC.empty false)

/-- C8: for the path complex built from the graph with edges `(0,1)`, `(1,2)`
and `max_rank = 3`, the construction succeeds, the computed allowed-path set
contains `(0, 1, 2)` and no path with more than three nodes, and
`skeleton(2)` is exactly `[(0, 1, 2)]`. -/
theorem path_graph_scenario :
    pcFromGraph G012 false 3 = .ok KpcG ∧
    [0, 1, 2] ∈ KpcG.allowed ∧
    (∀ p ∈ KpcG.allowed, p.length ≤ 3) ∧
    pathSkeleton KpcG 2 = .ok [[0, 1, 2]] := by
  decide

/-! ## C9: the incidence-matrix loop's lookups and assertion -/

theorem mapM_option_some {α β : Type} (f : α → Option β) :
    ∀ L : List α, (∀ x ∈ L, (f x).isSome) →
      ∃ l, L.mapM f = some l ∧ l.length = L.length
  | [], _ => ⟨[], rfl, rfl⟩
  | x :: L, h => by
    obtain ⟨y, hy⟩ := Option.isSome_iff_exists.mp (h x (List.mem_cons_self _ _))
    obtain ⟨l, hl, hlen⟩ := mapM_option_some f L fun z hz => h z (List.mem_cons_of_mem _ hz)
    refine ⟨y :: l, ?_, by simp [hlen]⟩
    rw [List.mapM_cons, hy, hl]
    rfl

theorem mapM_option_flatten_length {α β : Type} (f : α → Option (List β)) (m : ℕ) :
    ∀ L : List α, (∀ x ∈ L, ∃ y, f x = some y ∧ y.length = m) →
      ∃ ls, L.mapM f = some ls ∧ ls.flatten.length = m * L.length
  | [], _ => ⟨[], rfl, by simp⟩
  | x :: L, h => by
    obtain ⟨y, hy, hym⟩ := h x (List.mem_cons_self _ _)
    obtain ⟨ls, hls, hlen⟩ :=
      mapM_option_flatten_length f m L fun z hz => h z (List.mem_cons_of_mem _ hz)
    refine ⟨y :: ls, ?_, ?_⟩
    · rw [List.mapM_cons, hy, hls]
      rfl
    · rw [List.flatten_cons, List.length_append, hym, hlen, List.length_cons]
      ring

theorem scEntriesFor_some {skelM : List (List ℕ)} {t : List ℕ} (sIdx : ℕ)
    (h : ∀ i < t.length, (dictIdx? skelM (t.eraseIdx i)).isSome) :
    ∃ l, scEntriesFor skelM t sIdx = some l ∧ l.length = t.length := by
  unfold scEntriesFor
  obtain ⟨l, hl, hlen⟩ := mapM_option_some
    (fun i => (dictIdx? skelM (t.eraseIdx i)).map fun fIdx => (fIdx, sIdx, ((-1) ^ i : ℤ)))
    (List.range t.length)
    (fun i hi => by
      obtain ⟨fi, hfi⟩ := Option.isSome_iff_exists.mp (h i (List.mem_range.mp hi))
      dsimp only
      rw [hfi]
      rfl)
  exact ⟨l, hl, by rw [hlen, List.length_range]⟩

/-- C9: for a `SimplicialComplex` state satisfying the closure invariant at
rank `r` (every boundary face of a rank-`r` simplex is registered at rank
`r - 1`) and rank consistency, every dict lookup inside
`incidence_matrix(r)` succeeds and the loop generates exactly
`(r + 1) * len(simplex_dict_d)` signed entries — the source's internal
`assert len(values) == (rank + 1) * len(simplex_dict_d)` always holds. -/
theorem sc_incidence_assert (K : SC) (r : ℕ)
    (hC : scClosedAt K r) (hL : scRankLen K r) :
    ∃ es, scEntries K r = some es ∧ es.length = (r + 1) * (scSkelN K r).length := by
  unfold scEntries
  obtain ⟨ls, hls, hlen⟩ := mapM_option_flatten_length
    (fun sIdx => scEntriesFor (scSkelN K (r - 1))
      (sortNodes ((scSkelN K r).getD sIdx [])) sIdx)
    (r + 1)
    (List.range (scSkelN K r).length)
    (fun sIdx hsIdx => by
      have hsIdx' := List.mem_range.mp hsIdx
      have hmem : (scSkelN K r).getD sIdx [] ∈ K.buckets.getD r [] := by
        have h1 : (scSkelN K r).getD sIdx [] ∈ scSkelN K r := by
          rw [List.getD_eq_getElem _ _ hsIdx']
          exact List.getElem_mem _
        exact (List.mem_insertionSort _).mp h1
      obtain ⟨l, hl, hlL⟩ := @scEntriesFor_some (scSkelN K (r - 1))
        (sortNodes ((scSkelN K r).getD sIdx [])) sIdx
        (fun i hi => by
          refine dictIdx?_isSome.mpr ?_
          refine (List.mem_insertionSort _).mpr ?_
          exact hC _ hmem i hi)
      refine ⟨l, hl, ?_⟩
      rw [hlL]
      unfold sortNodes
      rw [List.length_insertionSort]
      exact hL _ hmem)
  refine ⟨ls.flatten, ?_, ?_⟩
  · rw [hls]
    rfl
  · rw [hlen, List.length_range]

/-- Witness for `sc_incidence_assert` at the triangle complex, rank 2. -/
theorem sc_incidence_assert_witness :
    ∃ es, scEntries Ksc012 2 = some es ∧
      es.length = (2 + 1) * (scSkelN Ksc012 2).length :=
  sc_incidence_assert Ksc012 2 (by decide) (by decide)

/-! ## C10: stored paths are allowed; removal never fails -/

theorem bucketKeys_map_merge (b : Bucket) (p : List ℕ) (a : AttrD) :
    bucketKeys (b.map fun kv => if kv.1 = p then (kv.1, dictUpdate kv.2 a) else kv) =
      bucketKeys b := by
  unfold bucketKeys
  rw [List.map_map]
  refine List.map_congr_left fun kv _ => ?_
  by_cases h : kv.1 = p <;> simp [h]

theorem bucketKeys_eraseP (p : List ℕ) :
    ∀ b : Bucket, bucketKeys (b.eraseP fun kv => kv.1 = p) = (bucketKeys b).erase p
  | [] => rfl
  | kv :: rest => by
    by_cases h : kv.1 = p
    · rw [List.eraseP_cons_of_pos (by simpa using h)]
      unfold bucketKeys
      rw [List.map_cons, h, List.erase_cons_head]
    · rw [List.eraseP_cons_of_neg (by simpa using h)]
      unfold bucketKeys
      rw [List.map_cons, List.map_cons, List.erase_cons_tail (by simpa using h)]
      have hrec := bucketKeys_eraseP p rest
      unfold bucketKeys at hrec
      rw [hrec]

theorem mem_setInsert_left {s : List (List ℕ)} {q x : List ℕ} (h : q ∈ s) :
    q ∈ setInsert s x := by
  unfold setInsert
  split
  · exact h
  · exact List.mem_append_left _ h

theorem mem_setInsert_self (s : List (List ℕ)) (x : List ℕ) : x ∈ setInsert s x := by
  unfold setInsert
  split
  · assumption
  · exact List.mem_append_right _ (by simp)

theorem mem_foldl_setInsert_left :
    ∀ (L : List (List ℕ)) (s : List (List ℕ)) (q : List ℕ),
      q ∈ s → q ∈ L.foldl setInsert s
  | [], _, _, h => h
  | x :: L, s, q, h => by
    rw [List.foldl_cons]
    exact mem_foldl_setInsert_left L _ q (mem_setInsert_left h)

theorem mem_foldl_setInsert_right :
    ∀ (L : List (List ℕ)) (s : List (List ℕ)) (q : List ℕ),
      q ∈ L → q ∈ L.foldl setInsert s
  | [], _, _, h => absurd h (List.not_mem_nil _)
  | x :: L, s, q, h => by
    rw [List.foldl_cons]
    rcases List.mem_cons.mp h with rfl | h'
    · exact mem_foldl_setInsert_left L _ q (mem_setInsert_self s q)
    · exact mem_foldl_setInsert_right L _ q h'

/-- Invariant of the sub-path expansion loop: bucket keys stay distinct,
stay rank-consistent, and every key is either an old allowed path or a
recorded new path. -/
theorem expandAll_inv (reserve : Bool) (allowed0 : List (List ℕ)) :
    ∀ (L : List (List ℕ)) (acc : List Bucket × List (List ℕ)),
      (∀ sub ∈ L, 1 ≤ sub.length) →
      (∀ b ∈ acc.1, (bucketKeys b).Nodup) →
      (∀ r < acc.1.length, ∀ q ∈ bucketKeys (acc.1.getD r []),
        q.length = r + 1 ∧ (q ∈ allowed0 ∨ q ∈ acc.2)) →
      (∀ b ∈ (L.foldl (expandStep reserve) acc).1, (bucketKeys b).Nodup) ∧
      ∀ r < (L.foldl (expandStep reserve) acc).1.length,
        ∀ q ∈ bucketKeys ((L.foldl (expandStep reserve) acc).1.getD r []),
          q.length = r + 1 ∧
            (q ∈ allowed0 ∨ q ∈ (L.foldl (expandStep reserve) acc).2)
  | [], acc, _, hnd, hq => ⟨hnd, hq⟩
  | x :: L, acc, hL, hnd, hq => by
    rw [List.foldl_cons]
    have hx : 1 ≤ (canonPath reserve x).length := by
      rw [canonPath_length]
      exact hL x (List.mem_cons_self _ _)
    refine expandAll_inv reserve allowed0 L (expandStep reserve acc x)
      (fun s hs => hL s (List.mem_cons_of_mem _ hs)) ?_ ?_
    · -- nodup after one step
      intro b hb
      unfold expandStep updateEntry at hb
      by_cases hp : canonPath reserve x ∈
          bucketKeys (acc.1.getD ((canonPath reserve x).length - 1) [])
      · rw [if_pos hp] at hb
        exact hnd b hb
      · rw [if_neg hp] at hb
        dsimp only at hb
        rcases List.mem_or_eq_of_mem_set hb with hb' | rfl
        · exact hnd b hb'
        · unfold bucketKeys
          rw [List.map_append, List.nodup_append]
          refine ⟨?_, by simp, ?_⟩
          · by_cases hlt : (canonPath reserve x).length - 1 < acc.1.length
            · exact hnd _ (by rw [List.getD_eq_getElem _ _ hlt]; exact List.getElem_mem _)
            · rw [List.getD_eq_getElem?_getD, List.getElem?_eq_none (Nat.le_of_not_lt hlt)]
              simp
          · intro y hy hyc
            simp only [List.map_cons, List.map_nil, List.mem_singleton] at hyc
            subst hyc
            exact hp hy
    · -- rank-consistency and allowed-or-new after one step
      intro r hr q hqmem
      unfold expandStep updateEntry at hr hqmem ⊢
      by_cases hp : canonPath reserve x ∈
          bucketKeys (acc.1.getD ((canonPath reserve x).length - 1) [])
      · rw [if_pos hp] at hr hqmem ⊢
        exact hq r hr q hqmem
      · rw [if_neg hp] at hr hqmem ⊢
        dsimp only at hr hqmem ⊢
        rw [List.length_set] at hr
        by_cases hlt : (canonPath reserve x).length - 1 < acc.1.length
        · by_cases hrx : (canonPath reserve x).length - 1 = r
          · subst hrx
            rw [getD_set_self hlt] at hqmem
            unfold bucketKeys at hqmem
            rw [List.map_append] at hqmem
            rcases List.mem_append.mp hqmem with h1 | h1
            · obtain ⟨hl, hmem⟩ := hq _ hlt q h1
              exact ⟨hl, hmem.imp id (fun h => List.mem_append_left _ h)⟩
            · simp only [List.map_cons, List.map_nil, List.mem_singleton] at h1
              subst h1
              exact ⟨by omega, Or.inr (List.mem_append_right _ (by simp))⟩
          · rw [getD_set_ne hrx] at hqmem
            obtain ⟨hl, hmem⟩ := hq r hr q hqmem
            exact ⟨hl, hmem.imp id (fun h => List.mem_append_left _ h)⟩
        · rw [List.set_eq_of_length_le (Nat.le_of_not_lt hlt)] at hqmem
          obtain ⟨hl, hmem⟩ := hq r hr q hqmem
          exact ⟨hl, hmem.imp id (fun h => List.mem_append_left _ h)⟩

/-- `expandAll_inv` specialised to the actual run of the loop. -/
theorem expandAll_inv_run (reserve : Bool) (allowed0 : List (List ℕ))
    (bs : List Bucket) (p : List ℕ)
    (hnd : ∀ b ∈ bs, (bucketKeys b).Nodup)
    (hq : ∀ r < bs.length, ∀ q ∈ bucketKeys (bs.getD r []),
      q.length = r + 1 ∧ q ∈ allowed0) :
    (∀ b ∈ (expandAll reserve bs p).1, (bucketKeys b).Nodup) ∧
    ∀ r < (expandAll reserve bs p).1.length,
      ∀ q ∈ bucketKeys ((expandAll reserve bs p).1.getD r []),
        q.length = r + 1 ∧ (q ∈ allowed0 ∨ q ∈ (expandAll reserve bs p).2) :=
  expandAll_inv reserve allowed0 (subPathsList p) (bs, [])
    (fun _sub hs => (subPathsList_length hs).1) hnd
    (fun r hr q hqm => ⟨(hq r hr q hqm).1, Or.inl (hq r hr q hqm).2⟩)

theorem growBuckets_eq_of_le {bs : List Bucket} {n : ℕ} (h : n ≤ bs.length) :
    growBuckets bs n = bs := by
  unfold growBuckets
  rw [Nat.sub_eq_zero_of_le h]
  simp

/-- `_remove_path` on a stored, allowed path succeeds, preserves the state
invariant, and keeps every other stored path stored. -/
theorem removePath_props {K K' : PC} {p : List ℕ}
    (hInv : pcInv K) (h : removePath K p = .ok K') :
    pcInv K' ∧ ∀ q, q ≠ p → pcFacesMem K q → pcFacesMem K' q := by
  unfold removePath at h
  split at h
  · exact absurd h (by simp)
  split at h
  · exact absurd h (by simp)
  rename_i hb' ha'
  rw [not_not] at hb' ha'
  have hlen : p.length - 1 < K.buckets.length := by
    by_contra hc
    push_neg at hc
    rw [List.getD_eq_getElem?_getD, List.getElem?_eq_none (by simpa using hc)] at hb'
    simp [bucketKeys] at hb'
  have hbmem : K.buckets.getD (p.length - 1) [] ∈ K.buckets := by
    rw [List.getD_eq_getElem _ _ hlen]
    exact List.getElem_mem _
  have hnodupB : (bucketKeys (K.buckets.getD (p.length - 1) [])).Nodup :=
    hInv.1 _ hbmem
  have hplen : p.length = (p.length - 1) + 1 := (hInv.2 _ hlen p hb').1
  cases h
  refine ⟨⟨?_, ?_⟩, ?_⟩
  · -- nodup of bucket keys
    intro b hb
    rcases List.mem_or_eq_of_mem_set hb with hb2 | rfl
    · exact hInv.1 b hb2
    · rw [bucketKeys_eraseP]
      exact (List.erase_sublist p _).nodup hnodupB
  · -- rank-length and membership in the shrunk allowed set
    intro r hr q hq
    dsimp only at hr hq ⊢
    rw [List.length_set] at hr
    by_cases hrx : p.length - 1 = r
    · subst hrx
      rw [getD_set_self hlen, bucketKeys_eraseP] at hq
      obtain ⟨hqp, hqmem⟩ := hnodupB.mem_erase_iff.mp hq
      obtain ⟨hql, hqa⟩ := hInv.2 _ hlen q hqmem
      exact ⟨hql, (List.mem_erase_of_ne hqp).mpr hqa⟩
    · rw [getD_set_ne hrx] at hq
      obtain ⟨hql, hqa⟩ := hInv.2 r hr q hq
      have hqp : q ≠ p := by
        intro hqe
        subst hqe
        omega
      exact ⟨hql, (List.mem_erase_of_ne hqp).mpr hqa⟩
  · -- other paths stay stored
    intro q hne hq
    unfold pcFacesMem at hq ⊢
    dsimp only
    by_cases hrx : p.length - 1 = q.length - 1
    · rw [← hrx, getD_set_self hlen, bucketKeys_eraseP]
      rw [← hrx] at hq
      exact (List.mem_erase_of_ne hne).mpr hq
    · rw [getD_set_ne hrx]
      exact hq

/-- Removing a nodup list of stored paths never fails and preserves the
invariant. -/
theorem foldlM_removePath_ok :
    ∀ (R : List (List ℕ)) (acc : PC),
      pcInv acc → R.Nodup → (∀ q ∈ R, pcFacesMem acc q) →
      ∃ K'', R.foldlM removePath acc = .ok K'' ∧ pcInv K''
  | [], acc, hInv, _, _ => ⟨acc, rfl, hInv⟩
  | q :: R, acc, hInv, hnd, hmem => by
    have hq := hmem q (List.mem_cons_self _ _)
    have hlen : q.length - 1 < acc.buckets.length := by
      by_contra hc
      push_neg at hc
      unfold pcFacesMem at hq
      rw [List.getD_eq_getElem?_getD, List.getElem?_eq_none (by simpa using hc)] at hq
      simp [bucketKeys] at hq
    have hq2 : q ∈ bucketKeys (acc.buckets.getD (q.length - 1) []) := hq
    have hall : q ∈ acc.allowed := (hInv.2 _ hlen q hq2).2
    have hok : ∃ K1, removePath acc q = .ok K1 := by
      unfold removePath
      rw [if_neg (not_not_intro hq2), if_neg (not_not_intro hall)]
      exact ⟨_, rfl⟩
    obtain ⟨K1, hK1⟩ := hok
    obtain ⟨hInv1, htrans⟩ := removePath_props hInv hK1
    rw [List.foldlM_cons, hK1, exBind_ok]
    refine foldlM_removePath_ok R K1 hInv1 hnd.of_cons ?_
    intro q' hq'
    have hne : q' ≠ q := by
      intro he
      subst he
      exact (List.nodup_cons.mp hnd).1 hq'
    exact htrans q' hne (hmem q' (List.mem_cons_of_mem _ hq'))

/-- C10: the state invariant "every stored p-path lies in `_allowed_paths`"
is preserved by `add_path`, and under it `remove_nodes` never fails — in
particular `self._allowed_paths.remove(path)` inside `_remove_path` always
finds its argument. -/
theorem stored_paths_allowed (K : PC) (p : List ℕ) (a : AttrD) (K' : PC) (ns : List ℕ)
    (hInv : pcInv K) (hadd : addPath K p a = .ok K') :
    pcInv K' ∧
    (∀ r, ∀ q ∈ bucketKeys (K.buckets.getD r []), q ∈ K.allowed) ∧
    ∃ K'', removeNodes K ns = .ok K'' ∧ pcInv K'' := by
  refine ⟨?_, ?_, ?_⟩
  · -- `add_path` preserves the invariant
    unfold addPath at hadd
    split at hadd
    · exact absurd hadd (by simp)
    split at hadd
    · exact absurd hadd (by simp)
    split at hadd
    · -- early-return branch
      rename_i hpres
      have hlen : p.length - 1 < K.buckets.length := by
        by_contra hc
        push_neg at hc
        rw [growBuckets_getD, List.getD_eq_getElem?_getD,
          List.getElem?_eq_none (by simpa using hc)] at hpres
        simp [bucketKeys] at hpres
      have hgrow : growBuckets K.buckets p.length = K.buckets :=
        growBuckets_eq_of_le (by omega)
      rw [hgrow] at hadd
      cases hadd
      constructor
      · intro b hb
        dsimp only at hb
        unfold mergeAttrsAt at hb
        rcases List.mem_or_eq_of_mem_set hb with hb2 | rfl
        · exact hInv.1 b hb2
        · rw [bucketKeys_map_merge]
          exact hInv.1 _ (by rw [List.getD_eq_getElem _ _ hlen]; exact List.getElem_mem _)
      · intro r hr q hq
        dsimp only at hr hq ⊢
        rw [bucketKeys_mergeAttrsAt] at hq
        unfold mergeAttrsAt at hr
        rw [List.length_set] at hr
        exact hInv.2 r hr q hq
    · -- expansion branch
      rename_i hpres
      have hE := expandAll_inv_run K.reserve K.allowed
        (growBuckets K.buckets p.length) p
        (fun b hb => by
          unfold growBuckets at hb
          rcases List.mem_append.mp hb with hb2 | hb2
          · exact hInv.1 b hb2
          · rw [List.eq_of_mem_replicate hb2]
            simp [bucketKeys])
        (fun r hr q hq => by
          rw [growBuckets_getD] at hq
          by_cases hrK : r < K.buckets.length
          · exact hInv.2 r hrK q hq
          · rw [List.getD_eq_getElem?_getD,
              List.getElem?_eq_none (by simpa using Nat.le_of_not_lt hrK)] at hq
            simp [bucketKeys] at hq)
      cases hadd
      constructor
      · intro b hb
        dsimp only at hb
        unfold mergeAttrsAt at hb
        rcases List.mem_or_eq_of_mem_set hb with hb2 | rfl
        · exact hE.1 b hb2
        · rw [bucketKeys_map_merge]
          by_cases hlt : p.length - 1 <
              (expandAll K.reserve (growBuckets K.buckets p.length) p).1.length
          · exact hE.1 _ (by rw [List.getD_eq_getElem _ _ hlt]; exact List.getElem_mem _)
          · rw [List.getD_eq_getElem?_getD,
              List.getElem?_eq_none (Nat.le_of_not_lt hlt)]
            simp [bucketKeys]
      · intro r hr q hq
        dsimp only at hr hq ⊢
        rw [bucketKeys_mergeAttrsAt] at hq
        unfold mergeAttrsAt at hr
        rw [List.length_set] at hr
        obtain ⟨hl, hmem⟩ := hE.2 r hr q hq
        refine ⟨hl, ?_⟩
        split
        · rename_i hnil
          rcases hmem with hmem | hmem
          · exact hmem
          · rw [hnil] at hmem
            exact absurd hmem (List.not_mem_nil q)
        · rcases hmem with hmem | hmem
          · exact mem_foldl_setInsert_left _ _ _ hmem
          · exact mem_foldl_setInsert_right _ _ _ hmem
  · -- stored paths are allowed
    intro r q hq
    by_cases hr : r < K.buckets.length
    · exact (hInv.2 r hr q hq).2
    · rw [List.getD_eq_getElem?_getD,
        List.getElem?_eq_none (by simpa using Nat.le_of_not_lt hr)] at hq
      simp [bucketKeys] at hq
  · -- `remove_nodes` never fails
    refine foldlM_removePath_ok (removedList K ns) K hInv (List.nodup_dedup _) ?_
    intro q hq
    unfold removedList at hq
    have hq2 := (List.mem_filter.mp (List.mem_dedup.mp hq)).1
    obtain ⟨b, hb, hqb⟩ := List.mem_flatMap.mp hq2
    obtain ⟨i, hi, rfl⟩ := List.mem_iff_getElem.mp hb
    have hgd : K.buckets.getD i [] = K.buckets[i] := List.getD_eq_getElem _ _ hi
    have hql := (hInv.2 i hi _ (by rw [hgd]; exact hqb)).1
    unfold pcFacesMem
    rw [hql]
    simp only [Nat.add_sub_cancel]
    rw [hgd]
    exact hqb

/-- Witness for `stored_paths_allowed`: add `(2, 3)` to the complex of
`(0, 1, 2)`, then remove node `1`. -/
theorem stored_paths_allowed_witness :
    pcInv (addPathD Kpc012 [2, 3]) ∧
    (∀ r, ∀ q ∈ bucketKeys (Kpc012.buckets.getD r []), q ∈ Kpc012.allowed) ∧
    ∃ K'', removeNodes Kpc012 [1] = .ok K'' ∧ pcInv K'' :=
  stored_paths_allowed Kpc012 [2, 3] [] (addPathD Kpc012 [2, 3]) [1]
    (by decide) (by decide)

end TopoNetX
